import Mathlib

/-!
Shallow embedding of `LEI_batch.py` (GLEIF LEI batch search tool).

Strings are modelled as `List Char` at the algorithmic level with `String`
wrappers at the interfaces.  Python regular-expression behaviour
(`re.sub` with literal word-bounded patterns, `\s+` collapsing) is embedded
as explicit left-to-right scans.  The ASCII fragments of Python's `\w`,
`\s`, `str.upper`, `str.isdigit` classes are used (the registry data and the
suffix table are ASCII).  JSON values (the API records) are modelled by the
inductive `JVal`; Python `None` and JSON `null` are identified, as both are
`None` in the running program.  UI side effects (`st.error`, `st.info`,
spinners) are dropped; `time.sleep(1)` is recorded as an event in an explicit
trace so that rate-limiting pauses can be counted and located.
-/

/-- ASCII word character, the ASCII fragment of Python's regex `\w`. -/
def isW (c : Char) : Bool := c.isAlphanum || c == '_'

/-- ASCII whitespace, the ASCII fragment of Python's regex `\s` and
`str.split()` / `str.strip()` whitespace. -/
def isPySpace (c : Char) : Bool :=
  c == ' ' || c == '\t' || c == '\n' || c == '\x0b' || c == '\x0c' || c == '\r'

/-- ASCII digit, the ASCII fragment of Python's `str.isdigit` (per character). -/
def isAsciiDigit (c : Char) : Bool := '0' ≤ c && c ≤ '9'

/-- Python `key.isdigit()`: non-empty and all digits. -/
def pyIsDigit (s : String) : Bool := !s.data.isEmpty && s.data.all isAsciiDigit

/-- Lower-to-upper case table for `str.upper` (ASCII fragment). -/
def caseTable : List (Char × Char) :=
  [('a', 'A'), ('b', 'B'), ('c', 'C'), ('d', 'D'), ('e', 'E'), ('f', 'F'),
   ('g', 'G'), ('h', 'H'), ('i', 'I'), ('j', 'J'), ('k', 'K'), ('l', 'L'),
   ('m', 'M'), ('n', 'N'), ('o', 'O'), ('p', 'P'), ('q', 'Q'), ('r', 'R'),
   ('s', 'S'), ('t', 'T'), ('u', 'U'), ('v', 'V'), ('w', 'W'), ('x', 'X'),
   ('y', 'Y'), ('z', 'Z')]

/-- Python `str.upper`, per character (ASCII fragment). -/
def pyUpper (c : Char) : Char :=
  match caseTable.lookup c with
  | some u => u
  | none => c

/-- Python `str.upper` on a whole string. -/
def pyUpperStr (s : String) : String := ⟨s.data.map pyUpper⟩

theorem lookup_mem {α β : Type} [BEq α] [LawfulBEq α] :
    ∀ (l : List (α × β)) (k : α) (v : β), l.lookup k = some v → (k, v) ∈ l
  | [], _, _, h => by simp [List.lookup] at h
  | (a, b) :: l, k, v, h => by
      by_cases hk : k = a
      · subst hk
        simp [List.lookup] at h
        simp [h]
      · have hne : (k == a) = false := beq_false_of_ne hk
        simp [List.lookup, hne] at h
        exact List.mem_cons_of_mem _ (lookup_mem l k v h)

theorem pyUpper_image_fixed : ∀ u ∈ caseTable.map Prod.snd, pyUpper u = u := by decide

theorem pyUpper_idem (c : Char) : pyUpper (pyUpper c) = pyUpper c := by
  unfold pyUpper
  cases h : caseTable.lookup c with
  | none => simp [h]
  | some u =>
      have hmem : u ∈ caseTable.map Prod.snd := by
        have := lookup_mem caseTable c u h
        exact List.mem_map_of_mem Prod.snd this
      have := pyUpper_image_fixed u hmem
      unfold pyUpper at this
      cases h2 : caseTable.lookup u with
      | none => rfl
      | some w => rw [h2] at this; exact this

theorem pyUpper_space : pyUpper ' ' = ' ' := by decide

/-- JSON values as returned by the registry API, together with Python `None`
(`null` and `None` coincide in the running program). -/
inductive JVal where
  | null
  | b (x : Bool)
  | i (n : Int)
  | s (str : String)
  | arr (elems : List JVal)
  | obj (fields : List (String × JVal))

mutual

def beqJ : JVal → JVal → Bool
  | .null, .null => true
  | .b x, .b y => x == y
  | .i x, .i y => x == y
  | .s x, .s y => x == y
  | .arr xs, .arr ys => beqArr xs ys
  | .obj xs, .obj ys => beqObj xs ys
  | _, _ => false

def beqArr : List JVal → List JVal → Bool
  | [], [] => true
  | x :: xs, y :: ys => beqJ x y && beqArr xs ys
  | _, _ => false

def beqObj : List (String × JVal) → List (String × JVal) → Bool
  | [], [] => true
  | (k, v) :: xs, (l, w) :: ys => k == l && beqJ v w && beqObj xs ys
  | _, _ => false

end

mutual

theorem beqJ_iff : ∀ a b : JVal, beqJ a b = true ↔ a = b
  | .null, .null => by simp [beqJ]
  | .b x, .b y => by simp [beqJ]
  | .i x, .i y => by simp [beqJ]
  | .s x, .s y => by simp [beqJ]
  | .arr xs, .arr ys => by
      simp only [beqJ, beqArr_iff xs ys]
      exact ⟨fun h => by rw [h], fun h => by cases h; rfl⟩
  | .obj xs, .obj ys => by
      simp only [beqJ, beqObj_iff xs ys]
      exact ⟨fun h => by rw [h], fun h => by cases h; rfl⟩
  | .null, .b _ => by simp [beqJ]
  | .null, .i _ => by simp [beqJ]
  | .null, .s _ => by simp [beqJ]
  | .null, .arr _ => by simp [beqJ]
  | .null, .obj _ => by simp [beqJ]
  | .b _, .null => by simp [beqJ]
  | .b _, .i _ => by simp [beqJ]
  | .b _, .s _ => by simp [beqJ]
  | .b _, .arr _ => by simp [beqJ]
  | .b _, .obj _ => by simp [beqJ]
  | .i _, .null => by simp [beqJ]
  | .i _, .b _ => by simp [beqJ]
  | .i _, .s _ => by simp [beqJ]
  | .i _, .arr _ => by simp [beqJ]
  | .i _, .obj _ => by simp [beqJ]
  | .s _, .null => by simp [beqJ]
  | .s _, .b _ => by simp [beqJ]
  | .s _, .i _ => by simp [beqJ]
  | .s _, .arr _ => by simp [beqJ]
  | .s _, .obj _ => by simp [beqJ]
  | .arr _, .null => by simp [beqJ]
  | .arr _, .b _ => by simp [beqJ]
  | .arr _, .i _ => by simp [beqJ]
  | .arr _, .s _ => by simp [beqJ]
  | .arr _, .obj _ => by simp [beqJ]
  | .obj _, .null => by simp [beqJ]
  | .obj _, .b _ => by simp [beqJ]
  | .obj _, .i _ => by simp [beqJ]
  | .obj _, .s _ => by simp [beqJ]
  | .obj _, .arr _ => by simp [beqJ]

theorem beqArr_iff : ∀ xs ys : List JVal, beqArr xs ys = true ↔ xs = ys
  | [], [] => by simp [beqArr]
  | x :: xs, y :: ys => by
      simp only [beqArr, Bool.and_eq_true, beqJ_iff x y, beqArr_iff xs ys]
      exact ⟨fun ⟨h1, h2⟩ => by rw [h1, h2], fun h => by cases h; exact ⟨rfl, rfl⟩⟩
  | [], _ :: _ => by simp [beqArr]
  | _ :: _, [] => by simp [beqArr]

theorem beqObj_iff : ∀ xs ys : List (String × JVal), beqObj xs ys = true ↔ xs = ys
  | [], [] => by simp [beqObj]
  | (k, v) :: xs, (l, w) :: ys => by
      simp only [beqObj, Bool.and_eq_true, beqJ_iff v w, beqObj_iff xs ys, beq_iff_eq]
      exact ⟨fun ⟨⟨h0, h1⟩, h2⟩ => by rw [h0, h1, h2],
             fun h => by cases h; exact ⟨⟨rfl, rfl⟩, rfl⟩⟩
  | [], _ :: _ => by simp [beqObj]
  | _ :: _, [] => by simp [beqObj]

end

instance : DecidableEq JVal := fun a b => decidable_of_iff _ (beqJ_iff a b)

/-- Python `dict.get(key)` on a JSON object: `None` when the key is absent. -/
def objGet (fields : List (String × JVal)) (k : String) : JVal :=
  match fields.lookup k with
  | some v => v
  | none => .null

/-- Python `dict.get(key, default)` with an explicit default. -/
def objGetD (fields : List (String × JVal)) (k : String) (d : JVal) : JVal :=
  match fields.lookup k with
  | some v => v
  | none => d

/-- Accumulator pass for Python `str.split('.')` (keeps empty pieces). -/
def splitDotsAux (acc : List Char) : List Char → List String
  | [] => [acc.reverse.asString]
  | c :: rest =>
      if c = '.' then acc.reverse.asString :: splitDotsAux [] rest
      else splitDotsAux (c :: acc) rest

/-- Python `path.split('.')`. -/
def splitDots (s : String) : List String := splitDotsAux [] s.data

/-- The loop body of `safe_get`, traversing the split path.  At each step the
source checks `isinstance(data, dict)`; a numeric key is then looked up with
`data[int(key)]`, which on a JSON object (string keys only) raises `KeyError`
and is caught, returning the default.  Any non-dict intermediate value
(including lists, despite the numeric-segment machinery) returns the default.
After the loop, `None` is replaced by the default. -/
def safeGetAux (dflt : JVal) : JVal → List String → JVal
  | data, [] => if data = .null then dflt else data
  | data, k :: ks =>
      match data with
      | .obj fields =>
          if pyIsDigit k then dflt
          else safeGetAux dflt (objGet fields k) ks
      | _ => dflt

/-- `safe_get(data, path, default)` from the source: split the path on `.`
and traverse. -/
def safe_get (data : JVal) (path : String) (dflt : JVal := .s "N/A") : JVal :=
  safeGetAux dflt data (splitDots path)

/-- Python truthiness of a JSON value (used by `filter(None, parts)` and
`if search_query:`). -/
def isTruthy : JVal → Bool
  | .null => false
  | .b x => x
  | .i n => n != 0
  | .s str => str ≠ ""
  | .arr xs => !xs.isEmpty
  | .obj fs => !fs.isEmpty

/-- String content of a JSON value; address parts are strings in the data
handled by the program (a non-string part would raise `TypeError` in
`", ".join`, which never happens on registry records). -/
def jstr : JVal → String
  | .s str => str
  | _ => ""

/-- `format_address(addr)` from the source: join the truthy address parts
with a comma, falling back to the sentinel. -/
def format_address (addr : JVal) : JVal :=
  match addr with
  | .obj _ =>
      let parts := [safe_get addr "addressLines.0" (.s ""),
                    safe_get addr "city" (.s ""),
                    safe_get addr "region" (.s ""),
                    safe_get addr "postalCode" (.s ""),
                    safe_get addr "country" (.s "")]
      let kept := parts.filter isTruthy
      if kept.isEmpty then .s "N/A"
      else .s (String.intercalate ", " (kept.map jstr))
  | _ => .s "N/A"

/-- `parse_api_record(record, search_query)` from the source: the fixed
19-field flat row, with a leading "Search Query" field when the query is
truthy (a non-`None`, non-empty string). -/
def parse_api_record (record : JVal) (searchQuery : Option String := none) :
    List (String × JVal) :=
  let baseData : List (String × JVal) :=
    [("LEI", safe_get record "id"),
     ("Legal Name", safe_get record "attributes.entity.legalName.name"),
     ("Other Name", safe_get record "attributes.entity.otherEntityNames.0.otherEntityName"),
     ("Entity Status", safe_get record "attributes.entity.status"),
     ("Legal Address", format_address (safe_get record "attributes.entity.legalAddress" (.obj []))),
     ("Registration Status", safe_get record "attributes.registration.status"),
     ("Managing LOU", safe_get record "attributes.registration.managingLou"),
     ("LEI Next Renewal Date", safe_get record "attributes.registration.nextRenewalDate"),
     ("Entity Creation Date", safe_get record "attributes.entity.entityCreationDate"),
     ("Entity Expiration Date", safe_get record "attributes.entity.entityExpirationDate"),
     ("Registered At (Register)", safe_get record "attributes.entity.registeredAt.id"),
     ("Registered As", safe_get record "attributes.entity.registeredAs"),
     ("Registration Authority Entity ID",
        safe_get record "attributes.entity.registrationAuthority.registrationAuthorityEntityID"),
     ("Validation Authority Entity ID (primary)",
        safe_get record "attributes.registration.validationAuthority.validationAuthorityEntityID"),
     ("Other Validation Authority ID 1",
        safe_get record "attributes.registration.otherValidationAuthorities.0.validationAuthorityEntityID"),
     ("Other Validation Authority ID 2",
        safe_get record "attributes.registration.otherValidationAuthorities.1.validationAuthorityEntityID"),
     ("Other Validation Authority ID 3",
        safe_get record "attributes.registration.otherValidationAuthorities.2.validationAuthorityEntityID"),
     ("Other Validation Authority ID 4",
        safe_get record "attributes.registration.otherValidationAuthorities.3.validationAuthorityEntityID"),
     ("Other Validation Authority ID 5",
        safe_get record "attributes.registration.otherValidationAuthorities.4.validationAuthorityEntityID")]
  match searchQuery with
  | some q => if q = "" then baseData else ("Search Query", .s q) :: baseData
  | none => baseData

/-- Field access on a flat record (every access in the source is to a key the
record is built with, so the default is never observed). -/
def getField (r : List (String × JVal)) (k : String) : JVal :=
  match r.lookup k with
  | some v => v
  | none => .null

/-- Whether a flat record carries a field. -/
def hasField (r : List (String × JVal)) (k : String) : Bool :=
  (r.lookup k).isSome

/-- One HTTP exchange as seen by `_make_request`: either a response with a
status code and a body (`none` for a body that is not valid JSON, which
raises `requests.exceptions.JSONDecodeError`, a `RequestException`), or a
transport-level failure (`requests.exceptions.RequestException`). -/
inductive HttpOutcome where
  | response (status : Nat) (body : Option JVal)
  | transportFailure

/-- `GleifClient._make_request`: `raise_for_status` raises `HTTPError` for
status codes in `[400, 600)`, which the source catches and absorbs into `[]`;
transport failures are likewise absorbed.  On a non-error status the body is
parsed and `response.json().get("data", [])` is evaluated: on an object body
this is total, but on a body whose top level is not an object, `.get` raises
an uncaught `AttributeError`, modelled as `.error`. -/
def make_request (o : HttpOutcome) : Except String JVal :=
  match o with
  | .transportFailure => .ok (.arr [])
  | .response status body =>
      if 400 ≤ status ∧ status < 600 then .ok (.arr [])
      else
        match body with
        | none => .ok (.arr [])
        | some (.obj fields) => .ok (objGetD fields "data" (.arr []))
        | some _ => .error "AttributeError: .get on a non-dict JSON body"

/-- The suffix table from the source, in source order.  The source sorts it
with `sorted(..., key=len, reverse=True)` before use. -/
def LEGAL_SUFFIXES_TO_REMOVE : List String :=
  ["PVT. LTD.", "PRIVATE LIMITED", "P. LTD.", "PVT.", "LTD.", "INC.", "LLC", "LIMITED",
   "PRIVATE", "CORPORATION", "CORP.", "CO.", "COMPANY", "GMBH", "S.A.",
   "B.V.", "A.S.", "SA", "BV", "AS"]

/-- The suffix table after Python's stable `sorted(..., key=len, reverse=True)`:
descending character length, ties in source order. -/
def sortedSuffixes : List String :=
  ["PRIVATE LIMITED", "CORPORATION", "PVT. LTD.", "P. LTD.", "LIMITED", "PRIVATE",
   "COMPANY", "CORP.", "PVT.", "LTD.", "INC.", "GMBH", "S.A.", "B.V.", "A.S.",
   "LLC", "CO.", "SA", "BV", "AS"]

theorem sortedSuffixes_perm : sortedSuffixes.Perm LEGAL_SUFFIXES_TO_REMOVE := by decide

theorem sortedSuffixes_sorted :
    sortedSuffixes.Sorted (fun a b => b.length ≤ a.length) := by decide

/-- Stable insertion step for descending length: an element moves ahead only
of strictly shorter ones, so ties keep their original relative order, as in
Python's stable `sorted`. -/
def insertDescLen (a : String) : List String → List String
  | [] => [a]
  | b :: l => if b.length ≤ a.length then a :: b :: l else b :: insertDescLen a l

/-- Stable sort by descending length (insertion sort), the behaviour of
`sorted(..., key=len, reverse=True)`. -/
def sortDescLen : List String → List String
  | [] => []
  | a :: l => insertDescLen a (sortDescLen l)

theorem sortedSuffixes_eq_stable_sort :
    sortedSuffixes = sortDescLen LEGAL_SUFFIXES_TO_REMOVE := by decide

/-- `suffix.replace(".", "")`: the literal pattern put between the two `\b`
anchors in the source's `re.sub` call. -/
def stripDots (s : String) : String := ⟨s.data.filter (fun c => c ≠ '.')⟩

/-- The twenty word-bounded literal patterns, in the order the source's loop
applies them. -/
def suffixPatterns : List String := sortedSuffixes.map stripDots

/-- Word/non-word status of the character before or after a scan position;
`none` (string start or end) counts as non-word, as in regex `\b`. -/
def wordB : Option Char → Bool
  | none => false
  | some c => isW c

/-- Last character of the non-empty pattern `p :: ps`. -/
def lastC (p : Char) (ps : List Char) : Char := ps.getLastD p

/-- Whether the literal pattern `p :: ps`, anchored by `\b` on both sides,
matches at the current scan position: the preceding character and the
pattern's first character must differ in word status, the pattern must be a
literal prefix of the remaining input, and the pattern's last character and
the following character must differ in word status. -/
def matchHere (p : Char) (ps : List Char) (prev : Option Char) (s : List Char) : Bool :=
  (wordB prev != isW p) && (p :: ps).isPrefixOf s &&
    (isW (lastC p ps) != wordB ((s.drop (ps.length + 1)).head?))

/-- Fuelled left-to-right scan for `re.sub(rf'\b{pattern}\b', '', name)`:
at a match the matched characters are dropped and scanning resumes after
them (the preceding character becoming the pattern's last character, as the
match is evaluated against the original string); otherwise one character is
emitted.  The fuel only serves to make the recursion structural; it is
adequate whenever `s.length ≤ fuel`. -/
def subWAF : Nat → Char → List Char → Option Char → List Char → List Char
  | _, _, _, _, [] => []
  | 0, _, _, _, s => s
  | fuel + 1, p, ps, prev, c :: s1 =>
      if matchHere p ps prev (c :: s1) then
        subWAF fuel p ps (some (lastC p ps)) ((c :: s1).drop (ps.length + 1))
      else c :: subWAF fuel p ps (some c) s1

/-- `re.sub(rf'\b{pattern}\b', '', s)` for a non-empty literal pattern. -/
def subWA (p : Char) (ps : List Char) (s : List Char) : List Char :=
  subWAF s.length p ps none s

/-- One `re.sub` application of the suffix loop for a pattern string. -/
def pySub (pat : String) (s : List Char) : List Char :=
  match pat.data with
  | [] => s
  | p :: ps => subWA p ps s

/-- Whether the pattern matches at no scan position of `s` (with the given
character preceding `s`). -/
def noOcc (p : Char) (ps : List Char) (prev : Option Char) : List Char → Bool
  | [] => true
  | c :: s1 => !matchHere p ps prev (c :: s1) && noOcc p ps (some c) s1

/-- Fuelled scan for `re.sub(r'\s+', ' ', s)`: each maximal whitespace run
becomes a single space. -/
def squeezeF : Nat → List Char → List Char
  | _, [] => []
  | 0, s => s
  | fuel + 1, c :: s1 =>
      if isPySpace c then ' ' :: squeezeF fuel (s1.dropWhile isPySpace)
      else c :: squeezeF fuel s1

/-- `re.sub(r'\s+', ' ', s)`. -/
def squeezeWS (s : List Char) : List Char := squeezeF s.length s

/-- Python `str.strip()`: drop leading and trailing whitespace. -/
def pyStrip (s : List Char) : List Char :=
  ((s.dropWhile isPySpace).reverse.dropWhile isPySpace).reverse

/-- Python `str.strip()` on `String`. -/
def pyStripStr (s : String) : String := ⟨pyStrip s.data⟩

/-- `clean_legal_name(name)` from the source: uppercase, delete periods and
commas, remove every word-bounded occurrence of each suffix pattern in table
order, then collapse whitespace runs and strip. -/
def clean_legal_name (name : List Char) : List Char :=
  let upped := name.map pyUpper
  let noPunct := upped.filter (fun c => !(c == '.' || c == ','))
  let unsuffixed := suffixPatterns.foldl (fun acc pat => pySub pat acc) noPunct
  pyStrip (squeezeWS unsuffixed)

/-- `clean_legal_name` on `String`. -/
def cleanName (s : String) : String := ⟨clean_legal_name s.data⟩

/-- Accumulator pass for Python `str.split()` (split on whitespace runs,
no empty tokens). -/
def wordsAux : List Char → List Char → List (List Char)
  | acc, [] => if acc.isEmpty then [] else [acc.reverse]
  | acc, c :: s =>
      if isPySpace c then
        if acc.isEmpty then wordsAux [] s else acc.reverse :: wordsAux [] s
      else wordsAux (c :: acc) s

/-- Python `str.split()` with no arguments. -/
def pySplit (s : String) : List String := (wordsAux [] s.data).map List.asString

/-- One observable step of a batch loop: an input item being processed, or a
`time.sleep(1)` rate-limiting pause. -/
inductive TEv where
  | item (q : String)
  | pause
deriving DecidableEq

/-- The mutable state of one batch operation: the accumulated result rows
(`all_results`), the seen-LEI set (`seen_leis`, insertion order irrelevant),
and the event trace (processing steps and sleeps). -/
structure BatchSt where
  results : List (List (String × JVal))
  seen : List JVal
  trace : List TEv
deriving DecidableEq

/-- The empty state at the start of an operation. -/
def initSt : BatchSt := ⟨[], [], []⟩

/-- The shared inner loop over one response's records: parse each record and
append it unless its "LEI" value is already in the seen set, in which case
the state is left untouched.  The boolean tracks the `found` flag of
`search_by_names` (set exactly when a record is appended); `_make_search_request`
ignores it. -/
def storeHits (sq : Option String) : BatchSt → Bool → List JVal → BatchSt × Bool
  | st, fnd, [] => (st, fnd)
  | st, fnd, r :: rs =>
      let parsed := parse_api_record r sq
      if getField parsed "LEI" ∈ st.seen then storeHits sq st fnd rs
      else
        storeHits sq
          { st with results := st.results ++ [parsed],
                    seen := getField parsed "LEI" :: st.seen } true rs

/-- The oracle standing for the HTTP layer during an orchestrator run: given
the filter key and the (stripped) query value it yields the list of records
the absorbed `_make_request` call returns for that query. -/
def ApiOracle : Type := String → String → List JVal

/-- The loop body of `_make_search_request`: `i` is the 1-based index from
`enumerate(queries, 1)` and `n = len(queries)`; after each item except the
last, when `n` exceeds the request budget of 60, a 1-second pause occurs. -/
def searchReqLoop (api : ApiOracle) (filterKey : String) (n : Nat) :
    Nat → List String → BatchSt → BatchSt
  | _, [], st => st
  | i, q :: rest, st =>
      let st0 := { st with trace := st.trace ++ [TEv.item q] }
      let st1 := (storeHits (some q) st0 false (api filterKey (pyStripStr q))).1
      let st2 := if n > 60 ∧ i < n then { st1 with trace := st1.trace ++ [TEv.pause] } else st1
      searchReqLoop api filterKey n (i + 1) rest st2

/-- `GleifClient._make_search_request(queries, filter_key)`: the unified
search loop with rate limiting and deduplication.  Each record is parsed with
`search_query=query` (the unstripped query). -/
def make_search_request (api : ApiOracle) (queries : List String) (filterKey : String) :
    BatchSt :=
  searchReqLoop api filterKey queries.length 1 queries initSt

/-- `GleifClient.fetch_by_ids(lei_ids)`. -/
def fetch_by_ids (api : ApiOracle) (leiIds : List String) : BatchSt :=
  make_search_request api leiIds "filter[lei]"

/-- `GleifClient.search_by_validation_ids(validation_ids)`. -/
def search_by_validation_ids (api : ApiOracle) (validationIds : List String) : BatchSt :=
  make_search_request api validationIds "filter[fulltext]"

/-- The inner helper `fetch_and_store(query, tag)` of `search_by_names`:
issue a full-text query with the stripped query string and store the hits
tagged `"{original_name} ({tag})"`. -/
def fetch_and_store (api : ApiOracle) (originalName tag query : String)
    (st : BatchSt) (fnd : Bool) : BatchSt × Bool :=
  storeHits (some (originalName ++ " (" ++ tag ++ ")")) st fnd
    (api "filter[fulltext]" (pyStripStr query))

/-- Stage 1 of the per-name fallback: the exact query, with the `found` flag
freshly `False`. -/
def nameStage1 (api : ApiOracle) (st : BatchSt) (name : String) : BatchSt × Bool :=
  fetch_and_store api name "exact" name st false

/-- Stage 2 of the per-name fallback: only when stage 1 stored nothing new,
and only when the cleaned form differs from the uppercased original, query
with the cleaned name. -/
def nameStage2 (api : ApiOracle) (name : String) (e : BatchSt × Bool) : BatchSt × Bool :=
  if e.2 then e
  else
    let cleaned := cleanName name
    if cleaned ≠ pyUpperStr name then fetch_and_store api name "cleaned" cleaned e.1 e.2
    else e

/-- The substring query text: the first `min(3, len(tokens))` whitespace
tokens of the re-cleaned name, joined by single spaces. -/
def substringQuery (name : String) : String :=
  let tokens := pySplit (cleanName name)
  String.intercalate " " (tokens.take (min 3 tokens.length))

/-- Stage 3 of the per-name fallback: only when stages 1 and 2 stored
nothing new, and only when the re-cleaned name has more than two whitespace
tokens, query with the substring query. -/
def nameStage3 (api : ApiOracle) (name : String) (e : BatchSt × Bool) : BatchSt :=
  if e.2 then e.1
  else
    let tokens := pySplit (cleanName name)
    if tokens.length > 2 then
      (fetch_and_store api name "substring" (substringQuery name) e.1 e.2).1
    else e.1

/-- The three-stage fallback for one name in `search_by_names`. -/
def processName (api : ApiOracle) (st : BatchSt) (name : String) : BatchSt :=
  nameStage3 api name (nameStage2 api name (nameStage1 api st name))

/-- The loop body of `search_by_names`, with the same 1-based indexing and
rate-limit rule as `searchReqLoop`. -/
def searchNamesLoop (api : ApiOracle) (n : Nat) :
    Nat → List String → BatchSt → BatchSt
  | _, [], st => st
  | i, name :: rest, st =>
      let st0 := { st with trace := st.trace ++ [TEv.item name] }
      let st1 := processName api st0 name
      let st2 := if n > 60 ∧ i < n then { st1 with trace := st1.trace ++ [TEv.pause] } else st1
      searchNamesLoop api n (i + 1) rest st2

/-- `GleifClient.search_by_names(names)`: the multi-stage fallback search. -/
def search_by_names (api : ApiOracle) (names : List String) : BatchSt :=
  searchNamesLoop api names.length 1 names initSt

/-- The dedup key of a flat record. -/
def leiOf (r : List (String × JVal)) : JVal := getField r "LEI"

/-- The dedup invariant the orchestrator maintains: result LEIs are pairwise
distinct, and every result LEI is in the seen set. -/
def dedupInv (st : BatchSt) : Prop :=
  (st.results.map leiOf).Nodup ∧ ∀ v ∈ st.results.map leiOf, v ∈ st.seen

theorem storeHits_trace (sq : Option String) :
    ∀ (rs : List JVal) (st : BatchSt) (f : Bool),
      (storeHits sq st f rs).1.trace = st.trace := by
  intro rs
  induction rs with
  | nil => intro st f; rfl
  | cons r rs ih =>
      intro st f
      by_cases h : getField (parse_api_record r sq) "LEI" ∈ st.seen
      · simp only [storeHits, h, if_pos]
        exact ih st f
      · simp only [storeHits, h, if_neg, not_false_iff]
        exact ih _ true

theorem storeHits_append_only (sq : Option String) :
    ∀ (rs : List JVal) (st : BatchSt) (f : Bool),
      ∃ t, (storeHits sq st f rs).1.results = st.results ++ t := by
  intro rs
  induction rs with
  | nil => intro st f; exact ⟨[], by simp [storeHits]⟩
  | cons r rs ih =>
      intro st f
      by_cases h : getField (parse_api_record r sq) "LEI" ∈ st.seen
      · simp only [storeHits, h, if_pos]
        exact ih st f
      · simp only [storeHits, h, if_neg, not_false_iff]
        obtain ⟨t, ht⟩ := ih { st with
          results := st.results ++ [parse_api_record r sq],
          seen := getField (parse_api_record r sq) "LEI" :: st.seen } true
        exact ⟨parse_api_record r sq :: t, by simp [ht]⟩

theorem storeHits_results_shape (sq : Option String) :
    ∀ (rs : List JVal) (st : BatchSt) (f : Bool),
      ∀ r ∈ (storeHits sq st f rs).1.results,
        r ∈ st.results ∨ ∃ rec ∈ rs, r = parse_api_record rec sq := by
  intro rs
  induction rs with
  | nil => intro st f r hr; exact Or.inl hr
  | cons rc rs ih =>
      intro st f r hr
      by_cases h : getField (parse_api_record rc sq) "LEI" ∈ st.seen
      · simp only [storeHits, h, if_pos] at hr
        rcases ih st f r hr with h1 | ⟨rec, hrec, hre⟩
        · exact Or.inl h1
        · exact Or.inr ⟨rec, List.mem_cons_of_mem _ hrec, hre⟩
      · simp only [storeHits, h, if_neg, not_false_iff] at hr
        rcases ih _ true r hr with h1 | ⟨rec, hrec, hre⟩
        · rcases List.mem_append.1 h1 with h2 | h2
          · exact Or.inl h2
          · exact Or.inr ⟨rc, List.mem_cons_self _ _, by
              simpa using (List.mem_singleton.1 h2)⟩
        · exact Or.inr ⟨rec, List.mem_cons_of_mem _ hrec, hre⟩

theorem storeHits_inv (sq : Option String) :
    ∀ (rs : List JVal) (st : BatchSt) (f : Bool),
      dedupInv st → dedupInv (storeHits sq st f rs).1 := by
  intro rs
  induction rs with
  | nil => intro st f h; exact h
  | cons rc rs ih =>
      intro st f h
      by_cases hm : getField (parse_api_record rc sq) "LEI" ∈ st.seen
      · simp only [storeHits, hm, if_pos]
        exact ih st f h
      · simp only [storeHits, hm, if_neg, not_false_iff]
        refine ih _ true ⟨?_, ?_⟩
        · simp only [List.map_append, List.map_cons, List.map_nil]
          rw [List.nodup_append]
          refine ⟨h.1, List.nodup_singleton _, ?_⟩
          intro v hv hv1
          rcases List.mem_singleton.1 hv1 with rfl
          exact hm (h.2 _ hv)
        · intro v hv
          simp only [List.map_append, List.map_cons, List.map_nil,
            List.mem_append, List.mem_singleton] at hv
          rcases hv with hv | rfl
          · exact List.mem_cons_of_mem _ (h.2 _ hv)
          · exact List.mem_cons_self _ _

theorem storeHits_proj (sq : Option String) :
    ∀ (rs : List JVal) (st st' : BatchSt) (f : Bool),
      st.results = st'.results → st.seen = st'.seen →
      (storeHits sq st f rs).1.results = (storeHits sq st' f rs).1.results ∧
      (storeHits sq st f rs).1.seen = (storeHits sq st' f rs).1.seen ∧
      (storeHits sq st f rs).2 = (storeHits sq st' f rs).2 := by
  intro rs
  induction rs with
  | nil => intro st st' f h1 h2; exact ⟨h1, h2, rfl⟩
  | cons rc rs ih =>
      intro st st' f h1 h2
      by_cases hm : getField (parse_api_record rc sq) "LEI" ∈ st.seen
      · have hm' : getField (parse_api_record rc sq) "LEI" ∈ st'.seen := h2 ▸ hm
        simp only [storeHits, hm, hm', if_pos]
        exact ih st st' f h1 h2
      · have hm' : getField (parse_api_record rc sq) "LEI" ∉ st'.seen := fun h => hm (h2 ▸ h)
        simp only [storeHits, hm, hm', if_neg, not_false_iff]
        exact ih _ _ true (by simp [h1]) (by simp [h2])

theorem fetch_and_store_trace (api : ApiOracle) (o t q : String) (st : BatchSt) (f : Bool) :
    (fetch_and_store api o t q st f).1.trace = st.trace :=
  storeHits_trace _ _ _ _

theorem nameStage1_trace (api : ApiOracle) (st : BatchSt) (name : String) :
    (nameStage1 api st name).1.trace = st.trace :=
  storeHits_trace _ _ _ _

theorem nameStage2_trace (api : ApiOracle) (name : String) (e : BatchSt × Bool) :
    (nameStage2 api name e).1.trace = e.1.trace := by
  unfold nameStage2
  by_cases h : e.2
  · simp [h]
  · simp only [h, if_false, Bool.false_eq_true]
    by_cases h2 : cleanName name ≠ pyUpperStr name
    · simp [h2, fetch_and_store_trace]
    · simp [h2]

theorem nameStage3_trace (api : ApiOracle) (name : String) (e : BatchSt × Bool) :
    (nameStage3 api name e).trace = e.1.trace := by
  unfold nameStage3
  by_cases h : e.2
  · simp [h]
  · simp only [h, if_false, Bool.false_eq_true]
    by_cases h2 : (pySplit (cleanName name)).length > 2
    · simp [h2, fetch_and_store_trace]
    · simp [h2]

theorem processName_trace (api : ApiOracle) (st : BatchSt) (name : String) :
    (processName api st name).trace = st.trace := by
  unfold processName
  rw [nameStage3_trace, nameStage2_trace, nameStage1_trace]

theorem fetch_and_store_inv (api : ApiOracle) (o t q : String) (st : BatchSt) (f : Bool) :
    dedupInv st → dedupInv (fetch_and_store api o t q st f).1 :=
  storeHits_inv _ _ _ _

theorem fetch_and_store_append_only (api : ApiOracle) (o t q : String) (st : BatchSt) (f : Bool) :
    ∃ u, (fetch_and_store api o t q st f).1.results = st.results ++ u :=
  storeHits_append_only _ _ _ _

theorem fetch_and_store_proj (api : ApiOracle) (o t q : String) (st st' : BatchSt) (f : Bool) :
    st.results = st'.results → st.seen = st'.seen →
    (fetch_and_store api o t q st f).1.results = (fetch_and_store api o t q st' f).1.results ∧
    (fetch_and_store api o t q st f).1.seen = (fetch_and_store api o t q st' f).1.seen ∧
    (fetch_and_store api o t q st f).2 = (fetch_and_store api o t q st' f).2 :=
  storeHits_proj _ _ _ _ _

theorem nameStage2_inv (api : ApiOracle) (name : String) (e : BatchSt × Bool) :
    dedupInv e.1 → dedupInv (nameStage2 api name e).1 := by
  intro h
  unfold nameStage2
  cases hf : e.2 with
  | true => simpa [hf] using h
  | false =>
      by_cases h2 : cleanName name ≠ pyUpperStr name
      · simpa [hf, h2] using fetch_and_store_inv api name "cleaned" (cleanName name) e.1 e.2 h
      · simpa [hf, h2] using h

theorem nameStage3_inv (api : ApiOracle) (name : String) (e : BatchSt × Bool) :
    dedupInv e.1 → dedupInv (nameStage3 api name e) := by
  intro h
  unfold nameStage3
  cases hf : e.2 with
  | true => simpa [hf] using h
  | false =>
      by_cases h2 : (pySplit (cleanName name)).length > 2
      · simpa [hf, h2] using
          fetch_and_store_inv api name "substring" (substringQuery name) e.1 e.2 h
      · simpa [hf, h2] using h

theorem processName_inv (api : ApiOracle) (st : BatchSt) (name : String) :
    dedupInv st → dedupInv (processName api st name) := by
  intro h
  exact nameStage3_inv _ _ _ (nameStage2_inv _ _ _ (storeHits_inv _ _ _ _ h))

theorem append_only_trans {a b c : List (List (String × JVal))}
    (h1 : ∃ u, b = a ++ u) (h2 : ∃ u, c = b ++ u) : ∃ u, c = a ++ u := by
  obtain ⟨u, hu⟩ := h1
  obtain ⟨v, hv⟩ := h2
  exact ⟨u ++ v, by rw [hv, hu, List.append_assoc]⟩

theorem nameStage2_append_only (api : ApiOracle) (name : String) (e : BatchSt × Bool) :
    ∃ u, (nameStage2 api name e).1.results = e.1.results ++ u := by
  unfold nameStage2
  cases hf : e.2 with
  | true => exact ⟨[], by simp [hf]⟩
  | false =>
      by_cases h2 : cleanName name ≠ pyUpperStr name
      · simpa [hf, h2] using
          fetch_and_store_append_only api name "cleaned" (cleanName name) e.1 e.2
      · exact ⟨[], by simp [hf, h2]⟩

theorem nameStage3_append_only (api : ApiOracle) (name : String) (e : BatchSt × Bool) :
    ∃ u, (nameStage3 api name e).results = e.1.results ++ u := by
  unfold nameStage3
  cases hf : e.2 with
  | true => exact ⟨[], by simp [hf]⟩
  | false =>
      by_cases h2 : (pySplit (cleanName name)).length > 2
      · simpa [hf, h2] using
          fetch_and_store_append_only api name "substring" (substringQuery name) e.1 e.2
      · exact ⟨[], by simp [hf, h2]⟩

theorem processName_append_only (api : ApiOracle) (st : BatchSt) (name : String) :
    ∃ u, (processName api st name).results = st.results ++ u := by
  unfold processName
  exact append_only_trans
    (append_only_trans (storeHits_append_only _ _ _ _) (nameStage2_append_only _ _ _))
    (nameStage3_append_only _ _ _)

theorem nameStage2_proj (api : ApiOracle) (name : String) (e e' : BatchSt × Bool) :
    e.1.results = e'.1.results → e.1.seen = e'.1.seen → e.2 = e'.2 →
    (nameStage2 api name e).1.results = (nameStage2 api name e').1.results ∧
    (nameStage2 api name e).1.seen = (nameStage2 api name e').1.seen ∧
    (nameStage2 api name e).2 = (nameStage2 api name e').2 := by
  intro h1 h2 h3
  unfold nameStage2
  rw [h3]
  cases hf : e'.2 with
  | true =>
      simp only [if_true]
      exact ⟨h1, h2, h3⟩
  | false =>
      by_cases hc : cleanName name ≠ pyUpperStr name
      · simp only [Bool.false_eq_true, if_false, if_pos hc]
        exact fetch_and_store_proj api name "cleaned" (cleanName name) e.1 e'.1 false h1 h2
      · simp only [Bool.false_eq_true, if_false, if_neg hc]
        exact ⟨h1, h2, h3⟩

theorem nameStage3_proj (api : ApiOracle) (name : String) (e e' : BatchSt × Bool) :
    e.1.results = e'.1.results → e.1.seen = e'.1.seen → e.2 = e'.2 →
    (nameStage3 api name e).results = (nameStage3 api name e').results ∧
    (nameStage3 api name e).seen = (nameStage3 api name e').seen := by
  intro h1 h2 h3
  unfold nameStage3
  rw [h3]
  cases hf : e'.2 with
  | true =>
      simp only [if_true]
      exact ⟨h1, h2⟩
  | false =>
      by_cases hc : (pySplit (cleanName name)).length > 2
      · simp only [Bool.false_eq_true, if_false, if_pos hc]
        have := fetch_and_store_proj api name "substring" (substringQuery name) e.1 e'.1 false h1 h2
        exact ⟨this.1, this.2.1⟩
      · simp only [Bool.false_eq_true, if_false, if_neg hc]
        exact ⟨h1, h2⟩

theorem processName_proj (api : ApiOracle) (st st' : BatchSt) (name : String) :
    st.results = st'.results → st.seen = st'.seen →
    (processName api st name).results = (processName api st' name).results ∧
    (processName api st name).seen = (processName api st' name).seen := by
  intro h1 h2
  unfold processName nameStage1 fetch_and_store
  have s1 := storeHits_proj (some (name ++ " (" ++ "exact" ++ ")"))
    (api "filter[fulltext]" (pyStripStr name)) st st' false h1 h2
  have s2 := nameStage2_proj api name _ _ s1.1 s1.2.1 s1.2.2
  exact nameStage3_proj api name _ _ s2.1 s2.2.1 s2.2.2

theorem searchReqLoop_inv (api : ApiOracle) (fk : String) (n : Nat) :
    ∀ (l : List String) (i : Nat) (st : BatchSt),
      dedupInv st → dedupInv (searchReqLoop api fk n i l st) := by
  intro l
  induction l with
  | nil => intro i st h; exact h
  | cons q rest ih =>
      intro i st h
      simp only [searchReqLoop]
      apply ih
      by_cases hp : n > 60 ∧ i < n
      · simp only [hp, if_true]
        exact storeHits_inv _ _ _ _ h
      · simp only [hp, if_false]
        exact storeHits_inv _ _ _ _ h

theorem searchReqLoop_append_only (api : ApiOracle) (fk : String) (n : Nat) :
    ∀ (l : List String) (i : Nat) (st : BatchSt),
      ∃ u, (searchReqLoop api fk n i l st).results = st.results ++ u := by
  intro l
  induction l with
  | nil => intro i st; exact ⟨[], by simp [searchReqLoop]⟩
  | cons q rest ih =>
      intro i st
      simp only [searchReqLoop]
      refine append_only_trans ?_ (ih _ _)
      by_cases hp : n > 60 ∧ i < n
      · simp only [hp, if_true]
        exact storeHits_append_only _ _ _ _
      · simp only [hp, if_false]
        exact storeHits_append_only _ _ _ _

theorem searchReqLoop_shape (api : ApiOracle) (fk : String) (n : Nat) :
    ∀ (l : List String) (i : Nat) (st : BatchSt),
      ∀ r ∈ (searchReqLoop api fk n i l st).results,
        r ∈ st.results ∨ ∃ q ∈ l, ∃ rec, r = parse_api_record rec (some q) := by
  intro l
  induction l with
  | nil => intro i st r hr; exact Or.inl hr
  | cons q rest ih =>
      intro i st r hr
      simp only [searchReqLoop] at hr
      have step : ∀ x ∈ (if n > 60 ∧ i < n then
            { (storeHits (some q) { st with trace := st.trace ++ [TEv.item q] } false
                (api fk (pyStripStr q))).1 with
              trace := (storeHits (some q) { st with trace := st.trace ++ [TEv.item q] } false
                (api fk (pyStripStr q))).1.trace ++ [TEv.pause] }
          else (storeHits (some q) { st with trace := st.trace ++ [TEv.item q] } false
                (api fk (pyStripStr q))).1).results,
          x ∈ st.results ∨ ∃ rec, x = parse_api_record rec (some q) := by
        intro x hx
        have hx' : x ∈ (storeHits (some q) { st with trace := st.trace ++ [TEv.item q] } false
            (api fk (pyStripStr q))).1.results := by
          by_cases hp : n > 60 ∧ i < n
          · simpa [hp] using hx
          · simpa [hp] using hx
        rcases storeHits_results_shape (some q) _ _ _ x hx' with h1 | ⟨rec, _, hre⟩
        · exact Or.inl h1
        · exact Or.inr ⟨rec, hre⟩
      rcases ih _ _ r hr with h1 | ⟨q2, hq2, rec, hre⟩
      · rcases step r h1 with h2 | ⟨rec, hre⟩
        · exact Or.inl h2
        · exact Or.inr ⟨q, List.mem_cons_self _ _, rec, hre⟩
      · exact Or.inr ⟨q2, List.mem_cons_of_mem _ hq2, rec, hre⟩

theorem searchReqLoop_proj (api : ApiOracle) (fk : String) :
    ∀ (l : List String) (n i n' i' : Nat) (st st' : BatchSt),
      st.results = st'.results → st.seen = st'.seen →
      (searchReqLoop api fk n i l st).results = (searchReqLoop api fk n' i' l st').results ∧
      (searchReqLoop api fk n i l st).seen = (searchReqLoop api fk n' i' l st').seen := by
  intro l
  induction l with
  | nil => intro n i n' i' st st' h1 h2; exact ⟨h1, h2⟩
  | cons q rest ih =>
      intro n i n' i' st st' h1 h2
      simp only [searchReqLoop]
      have hs := storeHits_proj (some q) (api fk (pyStripStr q))
        { st with trace := st.trace ++ [TEv.item q] }
        { st' with trace := st'.trace ++ [TEv.item q] } false h1 h2
      apply ih
      · by_cases hp : n > 60 ∧ i < n <;> by_cases hp' : n' > 60 ∧ i' < n' <;>
          simp [hp, hp', hs.1]
      · by_cases hp : n > 60 ∧ i < n <;> by_cases hp' : n' > 60 ∧ i' < n' <;>
          simp [hp, hp', hs.2.1]

theorem searchReqLoop_split (api : ApiOracle) (fk : String) (n : Nat) :
    ∀ (l1 l2 : List String) (i : Nat) (st : BatchSt),
      searchReqLoop api fk n i (l1 ++ l2) st =
        searchReqLoop api fk n (i + l1.length) l2 (searchReqLoop api fk n i l1 st) := by
  intro l1
  induction l1 with
  | nil => intro l2 i st; simp [searchReqLoop]
  | cons q rest ih =>
      intro l2 i st
      simp only [List.cons_append, List.append_eq, searchReqLoop, List.length_cons]
      rw [ih]
      have harith : i + 1 + rest.length = i + (rest.length + 1) := by omega
      rw [harith]

theorem searchNamesLoop_inv (api : ApiOracle) (n : Nat) :
    ∀ (l : List String) (i : Nat) (st : BatchSt),
      dedupInv st → dedupInv (searchNamesLoop api n i l st) := by
  intro l
  induction l with
  | nil => intro i st h; exact h
  | cons q rest ih =>
      intro i st h
      simp only [searchNamesLoop]
      apply ih
      by_cases hp : n > 60 ∧ i < n
      · simp only [hp, if_true]
        exact processName_inv _ _ _ h
      · simp only [hp, if_false]
        exact processName_inv _ _ _ h

theorem searchNamesLoop_append_only (api : ApiOracle) (n : Nat) :
    ∀ (l : List String) (i : Nat) (st : BatchSt),
      ∃ u, (searchNamesLoop api n i l st).results = st.results ++ u := by
  intro l
  induction l with
  | nil => intro i st; exact ⟨[], by simp [searchNamesLoop]⟩
  | cons q rest ih =>
      intro i st
      simp only [searchNamesLoop]
      refine append_only_trans ?_ (ih _ _)
      by_cases hp : n > 60 ∧ i < n
      · simp only [hp, if_true]
        exact processName_append_only _ _ _
      · simp only [hp, if_false]
        exact processName_append_only _ _ _

theorem searchNamesLoop_proj (api : ApiOracle) :
    ∀ (l : List String) (n i n' i' : Nat) (st st' : BatchSt),
      st.results = st'.results → st.seen = st'.seen →
      (searchNamesLoop api n i l st).results = (searchNamesLoop api n' i' l st').results ∧
      (searchNamesLoop api n i l st).seen = (searchNamesLoop api n' i' l st').seen := by
  intro l
  induction l with
  | nil => intro n i n' i' st st' h1 h2; exact ⟨h1, h2⟩
  | cons q rest ih =>
      intro n i n' i' st st' h1 h2
      simp only [searchNamesLoop]
      have hs := processName_proj api
        { st with trace := st.trace ++ [TEv.item q] }
        { st' with trace := st'.trace ++ [TEv.item q] } q h1 h2
      apply ih
      · by_cases hp : n > 60 ∧ i < n <;> by_cases hp' : n' > 60 ∧ i' < n' <;>
          simp [hp, hp', hs.1]
      · by_cases hp : n > 60 ∧ i < n <;> by_cases hp' : n' > 60 ∧ i' < n' <;>
          simp [hp, hp', hs.2]

theorem searchNamesLoop_split (api : ApiOracle) (n : Nat) :
    ∀ (l1 l2 : List String) (i : Nat) (st : BatchSt),
      searchNamesLoop api n i (l1 ++ l2) st =
        searchNamesLoop api n (i + l1.length) l2 (searchNamesLoop api n i l1 st) := by
  intro l1
  induction l1 with
  | nil => intro l2 i st; simp [searchNamesLoop]
  | cons q rest ih =>
      intro l2 i st
      simp only [List.cons_append, List.append_eq, searchNamesLoop, List.length_cons]
      rw [ih]
      have harith : i + 1 + rest.length = i + (rest.length + 1) := by omega
      rw [harith]

theorem searchReqLoop_trace_small (api : ApiOracle) (fk : String) (n : Nat) (h : ¬ n > 60) :
    ∀ (l : List String) (i : Nat) (st : BatchSt),
      (searchReqLoop api fk n i l st).trace = st.trace ++ l.map TEv.item := by
  intro l
  induction l with
  | nil => intro i st; simp [searchReqLoop]
  | cons q rest ih =>
      intro i st
      simp only [searchReqLoop]
      have hp : ¬(n > 60 ∧ i < n) := fun hc => h hc.1
      simp only [hp, if_false]
      rw [ih]
      rw [storeHits_trace]
      simp

theorem searchReqLoop_trace_big (api : ApiOracle) (fk : String) (n : Nat) (h : 60 < n) :
    ∀ (l : List String) (i : Nat) (st : BatchSt), i + l.length = n + 1 →
      (searchReqLoop api fk n i l st).trace =
        st.trace ++ List.intersperse TEv.pause (l.map TEv.item) := by
  intro l
  induction l with
  | nil => intro i st _; simp [searchReqLoop, List.intersperse]
  | cons q rest ih =>
      intro i st hi
      simp only [searchReqLoop]
      cases rest with
      | nil =>
          have hn : i = n := by simp at hi; omega
          have hp : ¬(n > 60 ∧ i < n) := fun hc => by omega
          simp only [hp, if_false, searchReqLoop]
          rw [storeHits_trace]
          simp [List.intersperse]
      | cons y rest2 =>
          have hil : i < n := by simp at hi; omega
          have hp : n > 60 ∧ i < n := ⟨h, hil⟩
          simp only [hp, and_self, if_true]
          rw [ih _ _ (by simp at hi ⊢; omega)]
          simp only [storeHits_trace]
          simp [List.intersperse, List.append_assoc]

theorem searchNamesLoop_trace_small (api : ApiOracle) (n : Nat) (h : ¬ n > 60) :
    ∀ (l : List String) (i : Nat) (st : BatchSt),
      (searchNamesLoop api n i l st).trace = st.trace ++ l.map TEv.item := by
  intro l
  induction l with
  | nil => intro i st; simp [searchNamesLoop]
  | cons q rest ih =>
      intro i st
      simp only [searchNamesLoop]
      have hp : ¬(n > 60 ∧ i < n) := fun hc => h hc.1
      simp only [hp, if_false]
      rw [ih]
      rw [processName_trace]
      simp

theorem searchNamesLoop_trace_big (api : ApiOracle) (n : Nat) (h : 60 < n) :
    ∀ (l : List String) (i : Nat) (st : BatchSt), i + l.length = n + 1 →
      (searchNamesLoop api n i l st).trace =
        st.trace ++ List.intersperse TEv.pause (l.map TEv.item) := by
  intro l
  induction l with
  | nil => intro i st _; simp [searchNamesLoop, List.intersperse]
  | cons q rest ih =>
      intro i st hi
      simp only [searchNamesLoop]
      cases rest with
      | nil =>
          have hn : i = n := by simp at hi; omega
          have hp : ¬(n > 60 ∧ i < n) := fun hc => by omega
          simp only [hp, if_false, searchNamesLoop]
          rw [processName_trace]
          simp [List.intersperse]
      | cons y rest2 =>
          have hil : i < n := by simp at hi; omega
          have hp : n > 60 ∧ i < n := ⟨h, hil⟩
          simp only [hp, and_self, if_true]
          rw [ih _ _ (by simp at hi ⊢; omega)]
          simp only [processName_trace]
          simp [List.intersperse, List.append_assoc]

theorem countP_intersperse_pause :
    ∀ xs : List String,
      (List.intersperse TEv.pause (xs.map TEv.item)).countP (fun e => e == TEv.pause) =
        xs.length - 1
  | [] => by simp [List.intersperse]
  | [x] => by simp [List.intersperse, List.countP_cons]
  | x :: y :: rest => by
      have ih := countP_intersperse_pause (y :: rest)
      simp only [List.map_cons, List.intersperse]
      rw [List.countP_cons, List.countP_cons]
      simp only [List.map_cons] at ih
      rw [ih]
      simp [List.length_cons]

theorem countP_items (xs : List String) :
    (xs.map TEv.item).countP (fun e => e == TEv.pause) = 0 := by
  rw [List.countP_eq_zero]
  intro a ha
  rcases List.mem_map.1 ha with ⟨x, _, rfl⟩
  simp

/-- Whether a JSON value is an object. -/
def JVal.isObj : JVal → Bool
  | .obj _ => true
  | _ => false

/-- A record whose `attributes.entity.otherEntityNames` is a non-empty JSON
array of objects, as the registry API returns it. -/
def otherNamesRecord : JVal :=
  .obj [("id", .s "5493001KJTIIGC8Y1R12"),
        ("attributes", .obj [("entity", .obj
          [("otherEntityNames", .arr [.obj [("otherEntityName", .s "ACME TRADING")]])])])]

/-- C1: the claim says a numeric path segment indexes 0-based into a
sequence, so "Other Name" should be the first element's `otherEntityName`.
The code disagrees: `safe_get` only indexes when the current value is a
`dict`; on a JSON array the `isinstance(data, dict)` guard fails and the
default is returned, and on a dict a numeric key raises `KeyError` (string
keys only) which is caught, returning the default.  So every numeric segment
yields the sentinel, and on the record above "Other Name" is "N/A", not
"ACME TRADING".  This theorem evaluates the code at the failing input and
states the two dead branches. -/
theorem c1_numeric_segment_sentinel :
    (∀ (d : JVal) (xs : List JVal) (k : String) (ks : List String),
        safeGetAux d (.arr xs) (k :: ks) = d) ∧
    (∀ (d : JVal) (fields : List (String × JVal)) (k : String) (ks : List String),
        pyIsDigit k = true → safeGetAux d (.obj fields) (k :: ks) = d) ∧
    getField (parse_api_record otherNamesRecord none) "Other Name" = JVal.s "N/A" ∧
    getField (parse_api_record otherNamesRecord none) "Other Name" ≠ JVal.s "ACME TRADING" := by
  refine ⟨fun d xs k ks => rfl, fun d fields k ks h => by simp [safeGetAux, h], ?_, ?_⟩
  · decide
  · decide

/-- Witness for the hypothesis-bearing conjunct of `c1_numeric_segment_sentinel`. -/
theorem c1_numeric_segment_sentinel_witness :
    safeGetAux (JVal.s "N/A") (.obj [("otherEntityName", .s "X")]) ["0", "otherEntityName"] =
      JVal.s "N/A" :=
  c1_numeric_segment_sentinel.2.1 (JVal.s "N/A") [("otherEntityName", .s "X")]
    "0" ["otherEntityName"] (by decide)

/-- C2 counterexample: a 2xx response whose JSON body is a top-level array
(not an object) makes `_make_request` raise an uncaught `AttributeError`
(`list.get` does not exist), so the request operation does not return a
sequence for every JSON body shape on a 2xx response. -/
theorem c2_nonobject_body_counterexample :
    (make_request (.response 200 (some (.arr [])))).isOk = false := by decide

/-- C2 amended: `_make_request` absorbs transport failures, HTTP error
statuses (400–599) and unparsable bodies into the empty array, and on an
object body returns its `data` member (empty array when absent); the only
raising path is a non-error status whose parsed body is not a JSON object.
(When `data` is present but not an array, that value is returned as-is.) -/
theorem c2_request_absorbs_failures :
    (make_request .transportFailure = .ok (.arr [])) ∧
    (∀ (st : Nat) (b : Option JVal), 400 ≤ st → st < 600 →
        make_request (.response st b) = .ok (.arr [])) ∧
    (∀ st : Nat, ¬(400 ≤ st ∧ st < 600) →
        make_request (.response st none) = .ok (.arr [])) ∧
    (∀ (st : Nat) (fields : List (String × JVal)), ¬(400 ≤ st ∧ st < 600) →
        make_request (.response st (some (.obj fields))) =
          .ok (objGetD fields "data" (.arr []))) ∧
    (∀ (st : Nat) (body : Option JVal),
        (make_request (.response st body)).isOk = false →
        ¬(400 ≤ st ∧ st < 600) ∧ ∃ v, body = some v ∧ v.isObj = false) := by
  refine ⟨rfl, ?_, ?_, ?_, ?_⟩
  · intro st b h1 h2
    simp [make_request, h1, h2]
  · intro st h
    simp [make_request, h]
  · intro st fields h
    simp [make_request, h]
  · intro st body h
    by_cases hs : 400 ≤ st ∧ st < 600
    · simp [make_request, hs, Except.isOk, Except.toBool] at h
    · refine ⟨hs, ?_⟩
      cases body with
      | none => simp [make_request, hs, Except.isOk, Except.toBool] at h
      | some v =>
          cases v with
          | obj fields => simp [make_request, hs, Except.isOk, Except.toBool] at h
          | null => exact ⟨_, rfl, rfl⟩
          | b x => exact ⟨_, rfl, rfl⟩
          | i n => exact ⟨_, rfl, rfl⟩
          | s str => exact ⟨_, rfl, rfl⟩
          | arr xs => exact ⟨_, rfl, rfl⟩

/-- Witness for the hypothesis-bearing conjuncts of `c2_request_absorbs_failures`. -/
theorem c2_request_absorbs_failures_witness :
    (make_request (.response 404 (some (.obj []))) = .ok (.arr [])) ∧
    (make_request (.response 200 none) = .ok (.arr [])) ∧
    (make_request (.response 200 (some (.obj [("data", .arr [.null])]))) =
      .ok (objGetD [("data", .arr [.null])] "data" (.arr []))) ∧
    (¬(400 ≤ 200 ∧ 200 < 600) ∧ ∃ v, (some (JVal.arr [])) = some v ∧ v.isObj = false) :=
  ⟨c2_request_absorbs_failures.2.1 404 (some (.obj [])) (by decide) (by decide),
   c2_request_absorbs_failures.2.2.1 200 (by decide),
   c2_request_absorbs_failures.2.2.2.1 200 [("data", .arr [.null])] (by decide),
   c2_request_absorbs_failures.2.2.2.2 200 (some (.arr [])) (by decide)⟩

/-- C4 counterexample: a terminal value that is the empty string is returned
as the empty string, not the sentinel — only `None` is replaced by the
default in `return data if data is not None else default`. -/
theorem c4_empty_terminal_counterexample :
    safe_get (.obj [("a", .s "")]) "a" = .s "" ∧ JVal.s "" ≠ JVal.s "N/A" := by
  exact ⟨by decide, by decide⟩

/-- C4 amended: a terminal `null` maps to the sentinel — `safe_get` never
returns `null` when its default is not `null`, and a one-segment path ending
at a `null` (or absent) value yields the default — but a terminal empty
string is returned unchanged. -/
theorem c4_null_terminal_sentinel :
    (∀ (d data : JVal) (ks : List String), d ≠ .null → safeGetAux d data ks ≠ .null) ∧
    (safe_get (.obj [("a", .null)]) "a" = .s "N/A") ∧
    (∀ (fields : List (String × JVal)) (k : String),
        pyIsDigit k = false → splitDots k = [k] → objGet fields k = .null →
        safe_get (.obj fields) k = .s "N/A") ∧
    (∀ (fields : List (String × JVal)) (k : String),
        pyIsDigit k = false → splitDots k = [k] → objGet fields k = .s "" →
        safe_get (.obj fields) k = .s "") := by
  refine ⟨?_, by decide, ?_, ?_⟩
  · intro d data ks hd
    induction ks generalizing data with
    | nil =>
        by_cases h : data = .null
        · simpa [safeGetAux, h] using hd
        · simp only [safeGetAux, h, if_false]
          exact h
    | cons k ks ih =>
        cases data with
        | obj fields =>
            by_cases h : pyIsDigit k = true
            · simpa [safeGetAux, h] using hd
            · have h' : pyIsDigit k = false := by
                cases hb : pyIsDigit k
                · rfl
                · exact absurd hb h
              simpa [safeGetAux, h'] using ih (objGet fields k)
        | null => simpa [safeGetAux] using hd
        | b x => simpa [safeGetAux] using hd
        | i n => simpa [safeGetAux] using hd
        | s str => simpa [safeGetAux] using hd
        | arr xs => simpa [safeGetAux] using hd
  · intro fields k h1 h2 h3
    simp [safe_get, h2, safeGetAux, h1, h3]
  · intro fields k h1 h2 h3
    simp [safe_get, h2, safeGetAux, h1, h3]

/-- Witness for the hypothesis-bearing conjuncts of `c4_null_terminal_sentinel`. -/
theorem c4_null_terminal_sentinel_witness :
    (safeGetAux (JVal.s "N/A") (.obj [("city", .null)]) ["city"] ≠ JVal.null) ∧
    (safe_get (.obj [("city", .null)]) "city" = .s "N/A") ∧
    (safe_get (.obj [("city", .s "")]) "city" = .s "") :=
  ⟨c4_null_terminal_sentinel.1 (JVal.s "N/A") (.obj [("city", .null)]) ["city"] (by decide),
   c4_null_terminal_sentinel.2.2.1 [("city", .null)] "city" (by decide) (by decide) (by decide),
   c4_null_terminal_sentinel.2.2.2 [("city", .s "")] "city" (by decide) (by decide) (by decide)⟩

/-- C8: in every batch operation over `n` input items, when `n` exceeds the
request budget of 60, the event trace is exactly the items interleaved with
one pause between each consecutive pair (none before the first, none after
the last), hence exactly `n - 1` pauses; for `n ≤ 60` the trace is just the
items, with zero pauses. -/
theorem c8_rate_limit_pauses (api : ApiOracle) (xs : List String) :
    ((fetch_by_ids api xs).trace =
      if 60 < xs.length then List.intersperse TEv.pause (xs.map TEv.item)
      else xs.map TEv.item) ∧
    ((search_by_validation_ids api xs).trace =
      if 60 < xs.length then List.intersperse TEv.pause (xs.map TEv.item)
      else xs.map TEv.item) ∧
    ((search_by_names api xs).trace =
      if 60 < xs.length then List.intersperse TEv.pause (xs.map TEv.item)
      else xs.map TEv.item) ∧
    ((fetch_by_ids api xs).trace.countP (fun e => e == TEv.pause) =
      if 60 < xs.length then xs.length - 1 else 0) ∧
    ((search_by_validation_ids api xs).trace.countP (fun e => e == TEv.pause) =
      if 60 < xs.length then xs.length - 1 else 0) ∧
    ((search_by_names api xs).trace.countP (fun e => e == TEv.pause) =
      if 60 < xs.length then xs.length - 1 else 0) := by
  have key : ∀ fk, (make_search_request api xs fk).trace =
      (if 60 < xs.length then List.intersperse TEv.pause (xs.map TEv.item)
       else xs.map TEv.item) := by
    intro fk
    by_cases h : 60 < xs.length
    · rw [if_pos h]
      have := searchReqLoop_trace_big api fk xs.length h xs 1 initSt (by omega)
      simpa [initSt] using this
    · rw [if_neg h]
      have := searchReqLoop_trace_small api fk xs.length h xs 1 initSt
      simpa [initSt] using this
  have keyN : (search_by_names api xs).trace =
      (if 60 < xs.length then List.intersperse TEv.pause (xs.map TEv.item)
       else xs.map TEv.item) := by
    by_cases h : 60 < xs.length
    · rw [if_pos h]
      have := searchNamesLoop_trace_big api xs.length h xs 1 initSt (by omega)
      simpa [search_by_names, initSt] using this
    · rw [if_neg h]
      have := searchNamesLoop_trace_small api xs.length h xs 1 initSt
      simpa [search_by_names, initSt] using this
  have cnt : ∀ t : List TEv, t =
      (if 60 < xs.length then List.intersperse TEv.pause (xs.map TEv.item)
       else xs.map TEv.item) →
      t.countP (fun e => e == TEv.pause) = if 60 < xs.length then xs.length - 1 else 0 := by
    intro t ht
    by_cases h : 60 < xs.length
    · rw [ht, if_pos h, if_pos h, countP_intersperse_pause]
    · rw [ht, if_neg h, if_neg h, countP_items]
  exact ⟨key _, key _, keyN, cnt _ (key _), cnt _ (key _), cnt _ keyN⟩

theorem initSt_inv : dedupInv initSt := ⟨List.nodup_nil, by simp [initSt]⟩

theorem filter_lei_length_le_one :
    ∀ (l : List (List (String × JVal))) (v : JVal), (l.map leiOf).Nodup →
      (l.filter (fun r => leiOf r == v)).length ≤ 1 := by
  intro l
  induction l with
  | nil => intro v _; simp
  | cons r l ih =>
      intro v h
      simp only [List.map_cons, List.nodup_cons] at h
      by_cases hv : leiOf r == v
      · have hempty : l.filter (fun x => leiOf x == v) = [] := by
          rw [List.filter_eq_nil_iff]
          intro a ha hav
          exact h.1 (by
            have : leiOf a = v := by simpa using hav
            have hrv : leiOf r = v := by simpa using hv
            rw [← hrv] at this
            exact this ▸ List.mem_map_of_mem leiOf ha)
        simp [List.filter_cons, hv, hempty]
      · simp only [List.filter_cons, hv, if_false, Bool.false_eq_true]
        exact ih v h.2

/-- C5: for each of the three batch operations, no two returned records share
an "LEI" value; a record whose LEI is already seen leaves the state exactly
unchanged (it neither appends nor overwrites); and processing additional
inputs only appends to the result list of the shorter run, so records stay in
first-seen insertion order and later occurrences never disturb earlier ones. -/
theorem c5_dedup_first_wins :
    (∀ (api : ApiOracle) (qs : List String) (fk : String),
        ((make_search_request api qs fk).results.map leiOf).Nodup) ∧
    (∀ (api : ApiOracle) (names : List String),
        ((search_by_names api names).results.map leiOf).Nodup) ∧
    (∀ (sq : Option String) (st : BatchSt) (fnd : Bool) (rec : JVal),
        getField (parse_api_record rec sq) "LEI" ∈ st.seen →
        storeHits sq st fnd [rec] = (st, fnd)) ∧
    (∀ (api : ApiOracle) (qs qs2 : List String) (fk : String),
        ∃ t, (make_search_request api (qs ++ qs2) fk).results =
          (make_search_request api qs fk).results ++ t) ∧
    (∀ (api : ApiOracle) (names names2 : List String),
        ∃ t, (search_by_names api (names ++ names2)).results =
          (search_by_names api names).results ++ t) := by
  refine ⟨?_, ?_, ?_, ?_, ?_⟩
  · intro api qs fk
    exact (searchReqLoop_inv api fk qs.length qs 1 initSt initSt_inv).1
  · intro api names
    exact (searchNamesLoop_inv api names.length names 1 initSt initSt_inv).1
  · intro sq st fnd rec h
    simp [storeHits, h]
  · intro api qs qs2 fk
    unfold make_search_request
    rw [searchReqLoop_split]
    obtain ⟨t, ht⟩ := searchReqLoop_append_only api fk (qs ++ qs2).length qs2
      (1 + qs.length) (searchReqLoop api fk (qs ++ qs2).length 1 qs initSt)
    refine ⟨t, ?_⟩
    rw [ht]
    congr 1
    exact (searchReqLoop_proj api fk qs (qs ++ qs2).length 1 qs.length 1
      initSt initSt rfl rfl).1
  · intro api names names2
    unfold search_by_names
    rw [searchNamesLoop_split]
    obtain ⟨t, ht⟩ := searchNamesLoop_append_only api (names ++ names2).length names2
      (1 + names.length) (searchNamesLoop api (names ++ names2).length 1 names initSt)
    refine ⟨t, ?_⟩
    rw [ht]
    congr 1
    exact (searchNamesLoop_proj api names (names ++ names2).length 1 names.length 1
      initSt initSt rfl rfl).1

/-- Witness for the hypothesis-bearing conjunct of `c5_dedup_first_wins`. -/
theorem c5_dedup_first_wins_witness :
    storeHits (some "Q") ⟨[], [JVal.s "N/A"], []⟩ false [JVal.obj []] =
      (⟨[], [JVal.s "N/A"], []⟩, false) :=
  c5_dedup_first_wins.2.2.1 (some "Q") ⟨[], [JVal.s "N/A"], []⟩ false (JVal.obj [])
    (by decide)

theorem parse_query_field (rec : JVal) (q : String) (h : q ≠ "") :
    getField (parse_api_record rec (some q)) "Search Query" = .s q := by
  simp [parse_api_record, h, getField, List.lookup]

/-- A record as returned for an exact-LEI query in the C3 scenario. -/
def recC3 : JVal := .obj [("id", .s "LEI-C3")]

/-- An oracle serving one hit for the exact-LEI query "ID1". -/
def apiC3 : ApiOracle := fun k q => if k == "filter[lei]" && q == "ID1" then [recC3] else []

/-- C3 counterexample: `_make_search_request` calls
`parse_api_record(rec, search_query=query)` for ID-based lookups too, so a
record returned by `fetch_by_ids` carries a "Search Query" field (equal to
the input id), contradicting the claim that ID-based batch lookups flatten
each hit without a query tag. -/
theorem c3_id_lookup_tagged_counterexample :
    (fetch_by_ids apiC3 ["ID1"]).results = [parse_api_record recC3 (some "ID1")] ∧
    hasField (parse_api_record recC3 (some "ID1")) "Search Query" = true ∧
    getField (parse_api_record recC3 (some "ID1")) "Search Query" = .s "ID1" := by
  exact ⟨by decide, by decide, by decide⟩

/-- C3 amended: `fetch_by_ids` and `search_by_validation_ids` tag every
flattened hit with the query that produced it: for non-empty input ids,
every returned record carries a "Search Query" field equal to one of the
ids.  (The field would be omitted only for an empty-string id, since
`parse_api_record` tests the query for truthiness.) -/
theorem c3_id_lookups_carry_query_tag (api : ApiOracle) (ids : List String)
    (hne : ∀ q ∈ ids, q ≠ "") :
    (∀ r ∈ (fetch_by_ids api ids).results,
        ∃ q ∈ ids, getField r "Search Query" = .s q) ∧
    (∀ r ∈ (search_by_validation_ids api ids).results,
        ∃ q ∈ ids, getField r "Search Query" = .s q) := by
  have key : ∀ fk, ∀ r ∈ (make_search_request api ids fk).results,
      ∃ q ∈ ids, getField r "Search Query" = .s q := by
    intro fk r hr
    rcases searchReqLoop_shape api fk ids.length ids 1 initSt r hr with h1 | ⟨q, hq, rec, hre⟩
    · simp [initSt] at h1
    · exact ⟨q, hq, by rw [hre]; exact parse_query_field rec q (hne q hq)⟩
  exact ⟨key _, key _⟩

/-- Witness for `c3_id_lookups_carry_query_tag`. -/
theorem c3_id_lookups_carry_query_tag_witness :
    ∃ q ∈ (["ID1"] : List String),
      getField (parse_api_record recC3 (some "ID1")) "Search Query" = JVal.s q :=
  (c3_id_lookups_carry_query_tag apiC3 ["ID1"] (by decide)).1
    (parse_api_record recC3 (some "ID1")) (by decide)

/-- An oracle returning two distinct records that both lack an `id` key. -/
def apiNoId : ApiOracle := fun _ _ => [.obj [("x", .s "1")], .obj [("y", .s "2")]]

/-- C10: a record without an "id" key flattens to LEI = "N/A", and this
sentinel deduplicates exactly like a real LEI: each result set holds at most
one record whose LEI is "N/A", and a later id-less record — even one for a
different entity — is silently dropped (the concrete run returns a single
row for two distinct id-less hits). -/
theorem c10_sentinel_lei_dedup :
    (∀ (fields : List (String × JVal)) (q : Option String),
        fields.lookup "id" = none →
        getField (parse_api_record (.obj fields) q) "LEI" = .s "N/A") ∧
    (∀ (api : ApiOracle) (qs : List String) (fk : String),
        ((make_search_request api qs fk).results.filter
          (fun r => leiOf r == .s "N/A")).length ≤ 1) ∧
    (∀ (api : ApiOracle) (names : List String),
        ((search_by_names api names).results.filter
          (fun r => leiOf r == .s "N/A")).length ≤ 1) ∧
    (fetch_by_ids apiNoId ["Q"]).results =
      [parse_api_record (.obj [("x", .s "1")]) (some "Q")] := by
  refine ⟨?_, ?_, ?_, by decide⟩
  · intro fields q hid
    have hsg : safe_get (.obj fields) "id" = .s "N/A" := by
      have hsplit : splitDots "id" = ["id"] := by decide
      have hdig : pyIsDigit "id" = false := by decide
      unfold safe_get
      rw [hsplit]
      simp [safeGetAux, hdig, objGet, hid]
    cases q with
    | none => simp [parse_api_record, getField, List.lookup, hsg]
    | some qq =>
        by_cases hq : qq = ""
        · simp [parse_api_record, hq, getField, List.lookup, hsg]
        · simp [parse_api_record, hq, getField, List.lookup, hsg]
  · intro api qs fk
    exact filter_lei_length_le_one _ _
      (searchReqLoop_inv api fk qs.length qs 1 initSt initSt_inv).1
  · intro api names
    exact filter_lei_length_le_one _ _
      (searchNamesLoop_inv api names.length names 1 initSt initSt_inv).1

/-- Witness for the hypothesis-bearing conjunct of `c10_sentinel_lei_dedup`. -/
theorem c10_sentinel_lei_dedup_witness :
    getField (parse_api_record (.obj [("x", .s "1")]) none) "LEI" = JVal.s "N/A" :=
  c10_sentinel_lei_dedup.1 [("x", .s "1")] none (by decide)

/-- C6: the cleaned stage runs only when the exact stage stored no new
unseen LEI and the cleaned form differs from the uppercased original
(otherwise the stage leaves the state exactly as it was); and for a name
whose exact query yields no hits and whose cleaned query yields one hit, the
result set is exactly that hit, tagged with the original name followed by
" (cleaned)". -/
theorem c6_cleaned_stage :
    (∀ (api : ApiOracle) (name : String) (e : BatchSt × Bool),
        e.2 = true → nameStage2 api name e = e) ∧
    (∀ (api : ApiOracle) (name : String) (e : BatchSt × Bool),
        cleanName name = pyUpperStr name → nameStage2 api name e = e) ∧
    (∀ (api : ApiOracle) (name : String) (r : JVal),
        api "filter[fulltext]" (pyStripStr name) = [] →
        cleanName name ≠ pyUpperStr name →
        api "filter[fulltext]" (pyStripStr (cleanName name)) = [r] →
        (search_by_names api [name]).results =
          [parse_api_record r (some (name ++ " (cleaned)"))]) := by
  refine ⟨?_, ?_, ?_⟩
  · intro api name e h
    unfold nameStage2
    rw [h]
    simp
  · intro api name e h
    unfold nameStage2
    cases hf : e.2 with
    | true => simp
    | false => simp [h]
  · intro api name r h1 h2 h3
    have hpause : ¬((1:Nat) > 60 ∧ 1 < 1) := by omega
    have htag : name ++ " (" ++ "cleaned" ++ ")" = name ++ " (cleaned)" := by
      rw [String.append_assoc, String.append_assoc]
      congr 1
    simp only [search_by_names, List.length_cons, List.length_nil, searchNamesLoop,
      hpause, if_false]
    unfold processName nameStage1 fetch_and_store
    rw [h1]
    simp only [storeHits]
    unfold nameStage2
    simp only [h2, ne_eq, not_false_iff, if_true, if_false, Bool.false_eq_true, ite_false]
    unfold fetch_and_store
    rw [h3]
    simp only [storeHits, initSt, List.not_mem_nil, if_false]
    unfold nameStage3
    simp [htag]

/-- Witness for `c6_cleaned_stage`: the end-to-end cleaned-stage scenario at
a concrete name and oracle. -/
theorem c6_cleaned_stage_witness :
    (search_by_names (fun _ q => if q == "ACME" then [recC3] else []) ["Acme Pvt. Ltd."]).results =
      [parse_api_record recC3 (some ("Acme Pvt. Ltd." ++ " (cleaned)"))] :=
  c6_cleaned_stage.2.2 (fun _ q => if q == "ACME" then [recC3] else []) "Acme Pvt. Ltd." recC3
    (by decide) (by decide) (by decide)

/-- C7: the substring stage is skipped outright when an earlier stage found a
new unseen LEI or when the re-cleaned name has at most two whitespace tokens
(in the latter case the whole per-name run is independent of what the oracle
would answer at any further query); when it does run, it issues the query
built from the first `min(3, tokenCount)` tokens joined by single spaces. -/
theorem c7_substring_stage :
    (∀ (api : ApiOracle) (name : String) (e : BatchSt × Bool),
        e.2 = true → nameStage3 api name e = e.1) ∧
    (∀ (api : ApiOracle) (name : String) (e : BatchSt × Bool),
        (pySplit (cleanName name)).length ≤ 2 → nameStage3 api name e = e.1) ∧
    (∀ (api : ApiOracle) (name : String) (e : BatchSt × Bool),
        e.2 = false → (pySplit (cleanName name)).length > 2 →
        nameStage3 api name e =
          (fetch_and_store api name "substring"
            (String.intercalate " " ((pySplit (cleanName name)).take
              (min 3 (pySplit (cleanName name)).length))) e.1 e.2).1) ∧
    (∀ (api api2 : ApiOracle) (name : String) (st : BatchSt),
        (pySplit (cleanName name)).length ≤ 2 →
        api "filter[fulltext]" (pyStripStr name) = api2 "filter[fulltext]" (pyStripStr name) →
        api "filter[fulltext]" (pyStripStr (cleanName name)) =
          api2 "filter[fulltext]" (pyStripStr (cleanName name)) →
        processName api st name = processName api2 st name) := by
  have skip2 : ∀ (api : ApiOracle) (name : String) (e : BatchSt × Bool),
      (pySplit (cleanName name)).length ≤ 2 → nameStage3 api name e = e.1 := by
    intro api name e h
    have h2 : ¬((pySplit (cleanName name)).length > 2) := by omega
    unfold nameStage3
    cases hf : e.2 with
    | true => simp
    | false => simp [h2]
  refine ⟨?_, skip2, ?_, ?_⟩
  · intro api name e h
    unfold nameStage3
    rw [h]
    simp
  · intro api name e hf hlen
    unfold nameStage3 substringQuery
    rw [hf]
    simp [hlen]
  · intro api api2 name st hlen ha1 ha2
    have h1eq : nameStage1 api st name = nameStage1 api2 st name := by
      unfold nameStage1 fetch_and_store
      rw [ha1]
    have h2eq : ∀ e, nameStage2 api name e = nameStage2 api2 name e := by
      intro e
      unfold nameStage2 fetch_and_store
      simp only [ha2]
    unfold processName
    rw [skip2 api name _ hlen, skip2 api2 name _ hlen, h1eq, h2eq]

/-- An oracle that agrees with `apiC3` on the exact and cleaned queries for
"Acme Co." but answers differently elsewhere. -/
def apiC7b : ApiOracle := fun k q =>
  if q == "ZZZ SUBSTR" then [.obj [("id", .s "OTHER")]] else apiC3 k q

/-- Witness for `c7_substring_stage`: concrete instances of its conjuncts,
including the oracle-independence of a two-token name's run. -/
theorem c7_substring_stage_witness :
    (nameStage3 apiC3 "Acme Co." (initSt, true) = initSt) ∧
    (nameStage3 apiC3 "Acme Co." (initSt, false) = initSt) ∧
    (nameStage3 apiC3 "Alpha Beta Gamma Delta Co." (initSt, false) =
      (fetch_and_store apiC3 "Alpha Beta Gamma Delta Co." "substring"
        (String.intercalate " "
          ((pySplit (cleanName "Alpha Beta Gamma Delta Co.")).take
            (min 3 (pySplit (cleanName "Alpha Beta Gamma Delta Co.")).length)))
        initSt false).1) ∧
    (processName apiC3 initSt "Acme Co." = processName apiC7b initSt "Acme Co.") :=
  ⟨c7_substring_stage.1 apiC3 "Acme Co." (initSt, true) rfl,
   c7_substring_stage.2.1 apiC3 "Acme Co." (initSt, false) (by decide),
   c7_substring_stage.2.2.1 apiC3 "Alpha Beta Gamma Delta Co." (initSt, false) rfl
     (by decide),
   c7_substring_stage.2.2.2 apiC3 apiC7b "Acme Co." initSt (by decide) (by decide)
     (by decide)⟩

theorem isPySpace_not_isW (c : Char) (h : isPySpace c = true) : isW c = false := by
  simp only [isPySpace, Bool.or_eq_true, beq_iff_eq] at h
  rcases h with ((((h | h) | h) | h) | h) | h <;> subst h <;> decide

theorem ne_of_isW_ne {a b : Char} (ha : isW a = true) (hb : isW b = false) : a ≠ b := by
  intro h
  rw [h] at ha
  rw [ha] at hb
  exact Bool.true_eq_false.mp hb

theorem isPrefixOf_iff_append :
    ∀ (a b : List Char), a.isPrefixOf b = true ↔ ∃ t, b = a ++ t := by
  intro a
  induction a with
  | nil => intro b; simp [List.isPrefixOf]
  | cons x a ih =>
      intro b
      cases b with
      | nil => simp [List.isPrefixOf]
      | cons y b =>
          simp only [List.isPrefixOf, Bool.and_eq_true, beq_iff_eq, ih b]
          constructor
          · rintro ⟨rfl, t, rfl⟩; exact ⟨t, rfl⟩
          · rintro ⟨t, ht⟩
            injection ht with h1 h2
            exact ⟨h1.symm, t, h2⟩

theorem isPrefixOf_cons_head {w : Char} {wt r : List Char}
    (h : (w :: wt).isPrefixOf r = true) : r.head? = some w := by
  cases r with
  | nil => simp [List.isPrefixOf] at h
  | cons c r =>
      simp only [List.isPrefixOf, Bool.and_eq_true, beq_iff_eq] at h
      rw [h.1]
      rfl

theorem noOcc_prev_congr (p : Char) (ps : List Char) :
    ∀ (s : List Char) (p1 p2 : Option Char), wordB p1 = wordB p2 →
      noOcc p ps p1 s = noOcc p ps p2 s := by
  intro s p1 p2 h
  cases s with
  | nil => rfl
  | cons c s1 =>
      simp only [noOcc, matchHere, h]

theorem matchHere_nonword_head (p : Char) (ps : List Char) (prev : Option Char)
    (d : Char) (s : List Char) (hp : isW p = true) (hd : isW d = false) :
    matchHere p ps prev (d :: s) = false := by
  have : ((p :: ps).isPrefixOf (d :: s)) = false := by
    simp only [List.isPrefixOf, Bool.and_eq_true, Bool.and_eq_false_iff]
    left
    simp only [beq_eq_false_iff_ne, ne_eq]
    exact ne_of_isW_ne hp hd
  simp [matchHere, this]

theorem noOcc_cons_nonword (p : Char) (ps : List Char) (prev : Option Char)
    (d : Char) (s : List Char) (hp : isW p = true) (hd : isW d = false) :
    noOcc p ps prev (d :: s) = noOcc p ps (some d) s := by
  simp [noOcc, matchHere_nonword_head p ps prev d s hp hd]

/-- The character preceding the remaining input after scanning `u` (with
`prev` preceding `u`). -/
def endC (prev : Option Char) : List Char → Option Char
  | [] => prev
  | c :: u => endC (some c) u

theorem endC_cons_pattern :
    ∀ (qs : List Char) (q : Char) (prev : Option Char),
      endC prev (q :: qs) = some (lastC q qs) := by
  intro qs
  induction qs with
  | nil => intro q prev; rfl
  | cons a qs ih =>
      intro q prev
      show endC (some q) (a :: qs) = _
      rw [ih a (some q)]
      simp [lastC, List.getLastD_cons, List.getLast?_cons, List.getLastD_eq_getLast?]

theorem noOcc_append_peel (p : Char) (ps : List Char) (v : List Char) :
    ∀ (u : List Char) (prev : Option Char),
      noOcc p ps prev (u ++ v) = true → noOcc p ps (endC prev u) v = true := by
  intro u
  induction u with
  | nil => intro prev h; exact h
  | cons c u ih =>
      intro prev h
      simp only [List.cons_append, noOcc, Bool.and_eq_true] at h
      exact ih (some c) h.2

theorem subWAF_nil (fuel : Nat) (p : Char) (ps : List Char) (prev : Option Char) :
    subWAF fuel p ps prev [] = [] := by
  cases fuel <;> rfl

theorem subWAF_length_le (p : Char) (ps : List Char) :
    ∀ (fuel : Nat) (s : List Char) (prev : Option Char),
      (subWAF fuel p ps prev s).length ≤ s.length := by
  intro fuel
  induction fuel with
  | zero => intro s prev; cases s <;> simp [subWAF]
  | succ f ih =>
      intro s prev
      cases s with
      | nil => simp [subWAF]
      | cons c s1 =>
          cases h : matchHere p ps prev (c :: s1) with
          | true =>
              simp only [subWAF, h, if_true]
              calc (subWAF f p ps (some (lastC p ps)) ((c :: s1).drop (ps.length + 1))).length
                  ≤ ((c :: s1).drop (ps.length + 1)).length := ih _ _
                _ ≤ (c :: s1).length := by
                    rw [List.length_drop]
                    omega
          | false =>
              simp only [subWAF, h, Bool.false_eq_true, if_false, List.length_cons]
              have := ih s1 (some c)
              omega

theorem subWAF_head_nonword (p : Char) (ps : List Char) (hp : isW p = true) :
    ∀ (fuel : Nat) (s : List Char) (prev : Option Char),
      wordB s.head? = false → (subWAF fuel p ps prev s).head? = s.head? := by
  intro fuel s prev hs
  cases s with
  | nil => rw [subWAF_nil]
  | cons d s1 =>
      have hd : isW d = false := hs
      cases fuel with
      | zero => rfl
      | succ f =>
          simp [subWAF, matchHere_nonword_head p ps prev d s1 hp hd]

theorem subWAF_head_wordprev (p : Char) (ps : List Char) (hp : isW p = true) :
    ∀ (fuel : Nat) (s : List Char) (prev : Option Char),
      wordB prev = true → (subWAF fuel p ps prev s).head? = s.head? := by
  intro fuel s prev hprev
  cases s with
  | nil => rw [subWAF_nil]
  | cons c s1 =>
      cases fuel with
      | zero => rfl
      | succ f =>
          have hm : matchHere p ps prev (c :: s1) = false := by
            simp [matchHere, hprev, hp]
          simp [subWAF, hm]

theorem crux_subWAF (p : Char) (ps : List Char) (hp : isW p = true)
    (hl : isW (lastC p ps) = true) :
    ∀ (fuel : Nat) (w s : List Char) (prev : Option Char),
      w ≠ [] → (∀ c ∈ w, isW c = true) → s.length ≤ fuel →
      w.isPrefixOf (subWAF fuel p ps prev s) = true →
      w.isPrefixOf s = true ∧
      wordB ((subWAF fuel p ps prev s).drop w.length).head? =
        wordB (s.drop w.length).head? := by
  intro fuel
  induction fuel with
  | zero =>
      intro w s prev hw0 _ hlen hpre
      have hs : s = [] := List.eq_nil_of_length_eq_zero (Nat.le_zero.mp hlen)
      subst hs
      rw [subWAF_nil] at hpre
      cases w with
      | nil => exact absurd rfl hw0
      | cons wh wt => simp [List.isPrefixOf] at hpre
  | succ f ih =>
      intro w s prev hw0 hw hlen hpre
      cases s with
      | nil =>
          rw [subWAF_nil] at hpre
          cases w with
          | nil => exact absurd rfl hw0
          | cons wh wt => simp [List.isPrefixOf] at hpre
      | cons c s1 =>
          cases hm : matchHere p ps prev (c :: s1) with
          | true =>
              simp only [subWAF, hm, if_true] at hpre
              have hafter := (by
                simpa only [matchHere, Bool.and_eq_true] using hm :
                  ((wordB prev != isW p) = true ∧ (p :: ps).isPrefixOf (c :: s1) = true) ∧
                  (isW (lastC p ps) != wordB (((c :: s1).drop (ps.length + 1)).head?)) = true).2
              have hwb : wordB (((c :: s1).drop (ps.length + 1)).head?) = false := by
                cases hW : wordB (((c :: s1).drop (ps.length + 1)).head?)
                · rfl
                · rw [hl, hW] at hafter
                  simp at hafter
              have hhead := subWAF_head_nonword p ps hp f ((c :: s1).drop (ps.length + 1))
                (some (lastC p ps)) hwb
              cases w with
              | nil => exact absurd rfl hw0
              | cons wh wt =>
                  have := isPrefixOf_cons_head hpre
                  rw [hhead] at this
                  have hwh : isW wh = true := hw wh (List.mem_cons_self _ _)
                  rw [this] at hwb
                  simp only [wordB] at hwb
                  rw [hwh] at hwb
                  exact Bool.noConfusion hwb
          | false =>
              simp only [subWAF, hm, Bool.false_eq_true, if_false] at hpre ⊢
              cases w with
              | nil => exact absurd rfl hw0
              | cons wh wt =>
                  simp only [List.isPrefixOf, Bool.and_eq_true, beq_iff_eq] at hpre
                  obtain ⟨rfl, hpre2⟩ := hpre
                  have hwh : isW wh = true := hw wh (List.mem_cons_self _ _)
                  cases wt with
                  | nil =>
                      refine ⟨by simp [List.isPrefixOf], ?_⟩
                      simp only [List.length_cons, List.length_nil, Nat.zero_add,
                        List.drop_succ_cons, List.drop_zero]
                      rw [subWAF_head_wordprev p ps hp f s1 (some wh) hwh]
                  | cons b wt2 =>
                      have hwtne : (b :: wt2) ≠ ([] : List Char) := by simp
                      have hwt : ∀ x ∈ b :: wt2, isW x = true := fun x hx =>
                        hw x (List.mem_cons_of_mem _ hx)
                      have hlen1 : s1.length ≤ f := by
                        simp only [List.length_cons] at hlen
                        omega
                      obtain ⟨ih1, ih2⟩ := ih (b :: wt2) s1 (some wh) hwtne hwt hlen1 hpre2
                      refine ⟨by simp [List.isPrefixOf, ih1], ?_⟩
                      simp only [List.length_cons, List.drop_succ_cons]
                      exact ih2

theorem lastC_mem : ∀ (ps : List Char) (p : Char), lastC p ps ∈ p :: ps := by
  intro ps
  induction ps with
  | nil => intro p; simp [lastC]
  | cons a ps ih =>
      intro p
      have heq : lastC p (a :: ps) = lastC a ps := List.getLastD_cons p a ps
      rw [heq]
      exact List.mem_cons_of_mem _ (ih a)

theorem matchHere_reflect_subWAF (q : Char) (qs : List Char) (hq : isW q = true)
    (hql : isW (lastC q qs) = true) (pp : Char) (pps : List Char)
    (hpp : ∀ x ∈ pp :: pps, isW x = true) :
    ∀ (fuel : Nat) (s1 : List Char) (c : Char) (prev : Option Char),
      s1.length ≤ fuel →
      matchHere pp pps prev (c :: subWAF fuel q qs (some c) s1) = true →
      matchHere pp pps prev (c :: s1) = true := by
  intro fuel s1 c prev hlen hm
  have hm' := (by
    simpa only [matchHere, Bool.and_eq_true] using hm :
      ((wordB prev != isW pp) = true ∧
        (pp :: pps).isPrefixOf (c :: subWAF fuel q qs (some c) s1) = true) ∧
      (isW (lastC pp pps) !=
        wordB (((c :: subWAF fuel q qs (some c) s1).drop (pps.length + 1)).head?)) = true)
  obtain ⟨⟨hb, hpre⟩, hafter⟩ := hm'
  simp only [List.isPrefixOf, Bool.and_eq_true, beq_iff_eq] at hpre
  obtain ⟨rfl, hpre2⟩ := hpre
  have hppw : isW pp = true := hpp pp (List.mem_cons_self _ _)
  simp only [List.drop_succ_cons] at hafter
  cases pps with
  | nil =>
      have hh := subWAF_head_wordprev q qs hq fuel s1 (some pp) hppw
      simp only [matchHere, Bool.and_eq_true]
      refine ⟨⟨hb, by simp [List.isPrefixOf]⟩, ?_⟩
      simp only [List.length_nil, List.drop_zero, List.drop_succ_cons] at hafter ⊢
      rw [hh] at hafter
      exact hafter
  | cons b pps2 =>
      have hwtne : (b :: pps2) ≠ ([] : List Char) := by simp
      have hwt : ∀ x ∈ b :: pps2, isW x = true := fun x hx =>
        hpp x (List.mem_cons_of_mem _ hx)
      obtain ⟨ih1, ih2⟩ := crux_subWAF q qs hq hql fuel (b :: pps2) s1 (some pp)
        hwtne hwt hlen hpre2
      simp only [matchHere, Bool.and_eq_true]
      refine ⟨⟨hb, by simp [List.isPrefixOf, ih1]⟩, ?_⟩
      simp only [List.drop_succ_cons] at hafter ⊢
      rw [← ih2]
      exact hafter

theorem noOcc_subWAF_self (p : Char) (ps : List Char)
    (hall : ∀ x ∈ p :: ps, isW x = true) :
    ∀ (fuel : Nat) (s : List Char) (prev : Option Char), s.length ≤ fuel →
      noOcc p ps prev (subWAF fuel p ps prev s) = true := by
  have hp : isW p = true := hall p (List.mem_cons_self _ _)
  have hl : isW (lastC p ps) = true := hall _ (lastC_mem ps p)
  intro fuel
  induction fuel with
  | zero =>
      intro s prev hlen
      have hs : s = [] := List.eq_nil_of_length_eq_zero (Nat.le_zero.mp hlen)
      subst hs
      rw [subWAF_nil]
      rfl
  | succ f ih =>
      intro s prev hlen
      cases s with
      | nil => rw [subWAF_nil]; rfl
      | cons c s1 =>
          have hlen1 : s1.length ≤ f := by
            simp only [List.length_cons] at hlen; omega
          cases hm : matchHere p ps prev (c :: s1) with
          | true =>
              simp only [subWAF, hm, if_true]
              have hafter := (by
                simpa only [matchHere, Bool.and_eq_true] using hm :
                  ((wordB prev != isW p) = true ∧ (p :: ps).isPrefixOf (c :: s1) = true) ∧
                  (isW (lastC p ps) !=
                    wordB (((c :: s1).drop (ps.length + 1)).head?)) = true).2
              have hwb : wordB (((c :: s1).drop (ps.length + 1)).head?) = false := by
                cases hW : wordB (((c :: s1).drop (ps.length + 1)).head?)
                · rfl
                · rw [hl, hW] at hafter
                  simp at hafter
              have hlent : ((c :: s1).drop (ps.length + 1)).length ≤ f := by
                rw [List.length_drop]
                simp only [List.length_cons] at hlen ⊢
                omega
              cases ht : (c :: s1).drop (ps.length + 1) with
              | nil => rw [subWAF_nil]; rfl
              | cons d t1 =>
                  rw [ht] at hwb hlent
                  have hd : isW d = false := by simpa [wordB] using hwb
                  have hR := ih (d :: t1) (some (lastC p ps)) hlent
                  cases hRs : subWAF f p ps (some (lastC p ps)) (d :: t1) with
                  | nil => rfl
                  | cons r0 R1 =>
                      have hhd := subWAF_head_nonword p ps hp f (d :: t1)
                        (some (lastC p ps)) (by simpa [wordB] using hd)
                      rw [hRs] at hhd
                      have hr0 : r0 = d := by
                        simpa using hhd
                      subst hr0
                      rw [hRs] at hR
                      simp only [noOcc, Bool.and_eq_true] at hR ⊢
                      exact ⟨by
                        rw [matchHere_nonword_head p ps prev r0 R1 hp hd]; rfl, hR.2⟩
          | false =>
              simp only [subWAF, hm, Bool.false_eq_true, if_false]
              simp only [noOcc, Bool.and_eq_true]
              refine ⟨?_, ih s1 (some c) hlen1⟩
              cases hmr : matchHere p ps prev (c :: subWAF f p ps (some c) s1) with
              | false => rfl
              | true =>
                  have := matchHere_reflect_subWAF p ps hp hl p ps hall f s1 c prev hlen1 hmr
                  rw [hm] at this
                  exact Bool.noConfusion this

theorem noOcc_subWAF_preserve (q : Char) (qs : List Char) (hq : isW q = true)
    (hql : isW (lastC q qs) = true) (pp : Char) (pps : List Char)
    (hpp : ∀ x ∈ pp :: pps, isW x = true) :
    ∀ (fuel : Nat) (s : List Char) (prev : Option Char), s.length ≤ fuel →
      noOcc pp pps prev s = true →
      noOcc pp pps prev (subWAF fuel q qs prev s) = true := by
  have hppw : isW pp = true := hpp pp (List.mem_cons_self _ _)
  intro fuel
  induction fuel with
  | zero =>
      intro s prev hlen _
      have hs : s = [] := List.eq_nil_of_length_eq_zero (Nat.le_zero.mp hlen)
      subst hs
      rw [subWAF_nil]
      rfl
  | succ f ih =>
      intro s prev hlen h
      cases s with
      | nil => rw [subWAF_nil]; rfl
      | cons c s1 =>
          have hlen1 : s1.length ≤ f := by
            simp only [List.length_cons] at hlen; omega
          have hcomp := (by
            simpa only [noOcc, Bool.and_eq_true] using h :
              (!matchHere pp pps prev (c :: s1)) = true ∧ noOcc pp pps (some c) s1 = true)
          cases hqm : matchHere q qs prev (c :: s1) with
          | true =>
              simp only [subWAF, hqm, if_true]
              have hqparts := (by
                simpa only [matchHere, Bool.and_eq_true] using hqm :
                  ((wordB prev != isW q) = true ∧ (q :: qs).isPrefixOf (c :: s1) = true) ∧
                  (isW (lastC q qs) !=
                    wordB (((c :: s1).drop (qs.length + 1)).head?)) = true)
              have hwb : wordB (((c :: s1).drop (qs.length + 1)).head?) = false := by
                cases hW : wordB (((c :: s1).drop (qs.length + 1)).head?)
                · rfl
                · have := hqparts.2
                  rw [hql, hW] at this
                  simp at this
              obtain ⟨t, htdec⟩ := (isPrefixOf_iff_append (q :: qs) (c :: s1)).1 hqparts.1.2
              have htdrop : (c :: s1).drop (qs.length + 1) = t := by
                rw [htdec]
                have : qs.length + 1 = (q :: qs).length := by simp
                rw [this, List.drop_left]
              have hpeel : noOcc pp pps (some (lastC q qs)) t = true := by
                have := noOcc_append_peel pp pps t (q :: qs) prev (by rw [← htdec]; exact h)
                rwa [endC_cons_pattern] at this
              have hlent : t.length ≤ f := by
                have : (c :: s1).length = (q :: qs).length + t.length := by
                  rw [htdec, List.length_append]
                simp only [List.length_cons] at hlen this
                omega
              rw [htdrop] at hwb ⊢
              have hR := ih t (some (lastC q qs)) hlent hpeel
              cases t with
              | nil => rw [subWAF_nil]; rfl
              | cons d t1 =>
                  have hd : isW d = false := by simpa [wordB] using hwb
                  cases hRs : subWAF f q qs (some (lastC q qs)) (d :: t1) with
                  | nil => rfl
                  | cons r0 R1 =>
                      have hhd := subWAF_head_nonword q qs hq f (d :: t1)
                        (some (lastC q qs)) (by simpa [wordB] using hd)
                      rw [hRs] at hhd
                      have hr0 : r0 = d := by simpa using hhd
                      subst hr0
                      rw [hRs] at hR
                      simp only [noOcc, Bool.and_eq_true] at hR ⊢
                      exact ⟨by
                        rw [matchHere_nonword_head pp pps prev r0 R1 hppw hd]; rfl, hR.2⟩
          | false =>
              simp only [subWAF, hqm, Bool.false_eq_true, if_false]
              simp only [noOcc, Bool.and_eq_true]
              refine ⟨?_, ih s1 (some c) hlen1 hcomp.2⟩
              cases hmr : matchHere pp pps prev (c :: subWAF f q qs (some c) s1) with
              | false => rfl
              | true =>
                  have := matchHere_reflect_subWAF q qs hq hql pp pps hpp f s1 c prev hlen1 hmr
                  have hfalse := hcomp.1
                  rw [this] at hfalse
                  exact Bool.noConfusion hfalse

theorem subWAF_id_of_noOcc (p : Char) (ps : List Char) :
    ∀ (fuel : Nat) (s : List Char) (prev : Option Char),
      noOcc p ps prev s = true → subWAF fuel p ps prev s = s := by
  intro fuel
  induction fuel with
  | zero => intro s prev _; cases s <;> rfl
  | succ f ih =>
      intro s prev h
      cases s with
      | nil => rfl
      | cons c s1 =>
          have hcomp := (by
            simpa only [noOcc, Bool.and_eq_true] using h :
              (!matchHere p ps prev (c :: s1)) = true ∧ noOcc p ps (some c) s1 = true)
          cases hm : matchHere p ps prev (c :: s1) with
          | true => rw [hm] at hcomp; exact absurd hcomp.1 (by simp)
          | false =>
              simp only [subWAF, hm, Bool.false_eq_true, if_false]
              rw [ih s1 (some c) hcomp.2]

theorem noOcc_dropWhile_space (pp : Char) (pps : List Char) :
    ∀ (s : List Char) (prev : Option Char), wordB prev = false →
      noOcc pp pps prev s = true →
      noOcc pp pps (some ' ') (s.dropWhile isPySpace) = true := by
  intro s
  induction s with
  | nil => intro prev _ _; rfl
  | cons c s1 ih =>
      intro prev hprev h
      have hcomp := (by
        simpa only [noOcc, Bool.and_eq_true] using h :
          (!matchHere pp pps prev (c :: s1)) = true ∧ noOcc pp pps (some c) s1 = true)
      cases hsp : isPySpace c with
      | true =>
          rw [List.dropWhile_cons_of_pos hsp]
          exact ih (some c) (by simp [wordB, isPySpace_not_isW c hsp]) hcomp.2
      | false =>
          rw [List.dropWhile_cons_of_neg (by simp [hsp])]
          rw [noOcc_prev_congr pp pps (c :: s1) (some ' ') prev
            (by rw [hprev]; decide)]
          exact h

theorem wordB_head_squeezeF :
    ∀ (fuel : Nat) (s : List Char), wordB (squeezeF fuel s).head? = wordB s.head? := by
  intro fuel s
  cases fuel with
  | zero => cases s <;> rfl
  | succ f =>
      cases s with
      | nil => rfl
      | cons c s1 =>
          cases hsp : isPySpace c with
          | true =>
              simp only [squeezeF, hsp, if_true]
              show wordB (some ' ') = wordB (some c)
              simp [wordB, isPySpace_not_isW c hsp]
              decide
          | false => simp [squeezeF, hsp]

theorem head_dropWhile_not (p : Char → Bool) :
    ∀ (s : List Char) (d : Char), (s.dropWhile p).head? = some d → p d = false := by
  intro s
  induction s with
  | nil => intro d h; simp [List.dropWhile] at h
  | cons c s1 ih =>
      intro d h
      cases hp : p c with
      | true =>
          rw [List.dropWhile_cons_of_pos hp] at h
          exact ih d h
      | false =>
          rw [List.dropWhile_cons_of_neg (by simp [hp])] at h
          injection h with h1
          rw [← h1]
          exact hp

theorem squeezeF_head_eq (fuel : Nat) (t : List Char)
    (h : ∀ d, t.head? = some d → isPySpace d = false) :
    (squeezeF fuel t).head? = t.head? := by
  cases fuel with
  | zero => cases t <;> rfl
  | succ f =>
      cases t with
      | nil => rfl
      | cons c t1 =>
          have := h c rfl
          simp [squeezeF, this]

theorem crux_squeezeF :
    ∀ (fuel : Nat) (w s : List Char),
      w ≠ [] → (∀ c ∈ w, isW c = true) → s.length ≤ fuel →
      w.isPrefixOf (squeezeF fuel s) = true →
      w.isPrefixOf s = true ∧
      wordB ((squeezeF fuel s).drop w.length).head? = wordB (s.drop w.length).head? := by
  intro fuel
  induction fuel with
  | zero =>
      intro w s hw0 _ hlen hpre
      have hs : s = [] := List.eq_nil_of_length_eq_zero (Nat.le_zero.mp hlen)
      subst hs
      cases w with
      | nil => exact absurd rfl hw0
      | cons wh wt => simp [squeezeF, List.isPrefixOf] at hpre
  | succ f ih =>
      intro w s hw0 hw hlen hpre
      cases s with
      | nil =>
          cases w with
          | nil => exact absurd rfl hw0
          | cons wh wt => simp [squeezeF, List.isPrefixOf] at hpre
      | cons c s1 =>
          have hlen1 : s1.length ≤ f := by
            simp only [List.length_cons] at hlen; omega
          cases hsp : isPySpace c with
          | true =>
              simp only [squeezeF, hsp, if_true] at hpre
              cases w with
              | nil => exact absurd rfl hw0
              | cons wh wt =>
                  have hhd := isPrefixOf_cons_head hpre
                  injection hhd with hhd
                  have hwh : isW wh = true := hw wh (List.mem_cons_self _ _)
                  rw [← hhd] at hwh
                  exact absurd hwh (by decide)
          | false =>
              simp only [squeezeF, hsp, Bool.false_eq_true, if_false] at hpre ⊢
              cases w with
              | nil => exact absurd rfl hw0
              | cons wh wt =>
                  simp only [List.isPrefixOf, Bool.and_eq_true, beq_iff_eq] at hpre
                  obtain ⟨rfl, hpre2⟩ := hpre
                  cases wt with
                  | nil =>
                      refine ⟨by simp [List.isPrefixOf], ?_⟩
                      simp only [List.length_cons, List.length_nil, Nat.zero_add,
                        List.drop_succ_cons, List.drop_zero]
                      exact wordB_head_squeezeF f s1
                  | cons b wt2 =>
                      have hwtne : (b :: wt2) ≠ ([] : List Char) := by simp
                      have hwt : ∀ x ∈ b :: wt2, isW x = true := fun x hx =>
                        hw x (List.mem_cons_of_mem _ hx)
                      obtain ⟨ih1, ih2⟩ := ih (b :: wt2) s1 hwtne hwt hlen1 hpre2
                      refine ⟨by simp [List.isPrefixOf, ih1], ?_⟩
                      simp only [List.length_cons, List.drop_succ_cons]
                      exact ih2

theorem matchHere_reflect_squeezeF (pp : Char) (pps : List Char)
    (hpp : ∀ x ∈ pp :: pps, isW x = true) :
    ∀ (fuel : Nat) (s1 : List Char) (c : Char) (prev : Option Char),
      s1.length ≤ fuel →
      matchHere pp pps prev (c :: squeezeF fuel s1) = true →
      matchHere pp pps prev (c :: s1) = true := by
  intro fuel s1 c prev hlen hm
  have hm' := (by
    simpa only [matchHere, Bool.and_eq_true] using hm :
      ((wordB prev != isW pp) = true ∧
        (pp :: pps).isPrefixOf (c :: squeezeF fuel s1) = true) ∧
      (isW (lastC pp pps) !=
        wordB (((c :: squeezeF fuel s1).drop (pps.length + 1)).head?)) = true)
  obtain ⟨⟨hb, hpre⟩, hafter⟩ := hm'
  simp only [List.isPrefixOf, Bool.and_eq_true, beq_iff_eq] at hpre
  obtain ⟨rfl, hpre2⟩ := hpre
  simp only [List.drop_succ_cons] at hafter
  cases pps with
  | nil =>
      simp only [matchHere, Bool.and_eq_true]
      refine ⟨⟨hb, by simp [List.isPrefixOf]⟩, ?_⟩
      simp only [List.length_nil, List.drop_zero, List.drop_succ_cons] at hafter ⊢
      rw [wordB_head_squeezeF fuel s1] at hafter
      exact hafter
  | cons b pps2 =>
      have hwtne : (b :: pps2) ≠ ([] : List Char) := by simp
      have hwt : ∀ x ∈ b :: pps2, isW x = true := fun x hx =>
        hpp x (List.mem_cons_of_mem _ hx)
      obtain ⟨ih1, ih2⟩ := crux_squeezeF fuel (b :: pps2) s1 hwtne hwt hlen hpre2
      simp only [matchHere, Bool.and_eq_true]
      refine ⟨⟨hb, by simp [List.isPrefixOf, ih1]⟩, ?_⟩
      simp only [List.drop_succ_cons] at hafter ⊢
      rw [← ih2]
      exact hafter

theorem noOcc_squeezeF (pp : Char) (pps : List Char)
    (hpp : ∀ x ∈ pp :: pps, isW x = true) :
    ∀ (fuel : Nat) (s : List Char) (prev : Option Char), s.length ≤ fuel →
      noOcc pp pps prev s = true → noOcc pp pps prev (squeezeF fuel s) = true := by
  have hppw : isW pp = true := hpp pp (List.mem_cons_self _ _)
  intro fuel
  induction fuel with
  | zero =>
      intro s prev hlen _
      have hs : s = [] := List.eq_nil_of_length_eq_zero (Nat.le_zero.mp hlen)
      subst hs
      rfl
  | succ f ih =>
      intro s prev hlen h
      cases s with
      | nil => rfl
      | cons c s1 =>
          have hlen1 : s1.length ≤ f := by
            simp only [List.length_cons] at hlen; omega
          have hcomp := (by
            simpa only [noOcc, Bool.and_eq_true] using h :
              (!matchHere pp pps prev (c :: s1)) = true ∧ noOcc pp pps (some c) s1 = true)
          cases hsp : isPySpace c with
          | true =>
              simp only [squeezeF, hsp, if_true]
              simp only [noOcc, Bool.and_eq_true]
              refine ⟨by
                rw [matchHere_nonword_head pp pps prev ' ' _ hppw (by decide)]; rfl, ?_⟩
              have hlen2 : (s1.dropWhile isPySpace).length ≤ f :=
                le_trans (List.Sublist.length_le (List.dropWhile_sublist _)) hlen1
              exact ih (s1.dropWhile isPySpace) (some ' ') hlen2
                (noOcc_dropWhile_space pp pps s1 (some c)
                  (by simp [wordB, isPySpace_not_isW c hsp]) hcomp.2)
          | false =>
              simp only [squeezeF, hsp, Bool.false_eq_true, if_false]
              simp only [noOcc, Bool.and_eq_true]
              refine ⟨?_, ih s1 (some c) hlen1 hcomp.2⟩
              cases hmr : matchHere pp pps prev (c :: squeezeF f s1) with
              | false => rfl
              | true =>
                  have := matchHere_reflect_squeezeF pp pps hpp f s1 c prev hlen1 hmr
                  have hfalse := hcomp.1
                  rw [this] at hfalse
                  exact Bool.noConfusion hfalse

theorem isPrefixOf_append_right {a b v : List Char} (h : a.isPrefixOf b = true) :
    a.isPrefixOf (b ++ v) = true := by
  obtain ⟨t, rfl⟩ := (isPrefixOf_iff_append a b).1 h
  exact (isPrefixOf_iff_append a (a ++ t ++ v)).2 ⟨t ++ v, by rw [List.append_assoc]⟩

theorem matchHere_extend_spaces (pp : Char) (pps : List Char) (v : List Char)
    (hv : ∀ c ∈ v, isPySpace c = true) (prev : Option Char) (u : List Char)
    (h : matchHere pp pps prev u = true) : matchHere pp pps prev (u ++ v) = true := by
  have h' := (by
    simpa only [matchHere, Bool.and_eq_true] using h :
      ((wordB prev != isW pp) = true ∧ (pp :: pps).isPrefixOf u = true) ∧
      (isW (lastC pp pps) != wordB ((u.drop (pps.length + 1)).head?)) = true)
  obtain ⟨⟨hb, hpre⟩, hafter⟩ := h'
  have hL : pps.length + 1 ≤ u.length := by
    obtain ⟨t, rfl⟩ := (isPrefixOf_iff_append _ u).1 hpre
    simp only [List.length_append, List.length_cons]
    omega
  simp only [matchHere, Bool.and_eq_true]
  refine ⟨⟨hb, isPrefixOf_append_right hpre⟩, ?_⟩
  rw [List.drop_append_of_le_length hL]
  cases hu : u.drop (pps.length + 1) with
  | nil =>
      rw [hu] at hafter
      simp only [List.nil_append]
      cases hvh : v.head? with
      | none => simpa using hafter
      | some d =>
          have hd : isPySpace d = true := by
            cases v with
            | nil => simp at hvh
            | cons e v1 =>
                injection hvh with hvh
                rw [← hvh]
                exact hv e (List.mem_cons_self _ _)
          have : wordB (some d) = false := by simp [wordB, isPySpace_not_isW d hd]
          rw [this]
          simpa [wordB] using hafter
  | cons d r =>
      rw [hu] at hafter
      simpa using hafter

theorem noOcc_append_spaces (pp : Char) (pps : List Char) (v : List Char)
    (hv : ∀ c ∈ v, isPySpace c = true) :
    ∀ (u : List Char) (prev : Option Char),
      noOcc pp pps prev (u ++ v) = true → noOcc pp pps prev u = true := by
  intro u
  induction u with
  | nil => intro prev _; rfl
  | cons c u1 ih =>
      intro prev h
      have hcomp := (by
        simpa only [List.cons_append, noOcc, Bool.and_eq_true] using h :
          (!matchHere pp pps prev (c :: (u1 ++ v))) = true ∧
          noOcc pp pps (some c) (u1 ++ v) = true)
      simp only [noOcc, Bool.and_eq_true]
      refine ⟨?_, ih (some c) hcomp.2⟩
      cases hm : matchHere pp pps prev (c :: u1) with
      | false => rfl
      | true =>
          have := matchHere_extend_spaces pp pps v hv prev (c :: u1) hm
          rw [List.cons_append] at this
          have hfalse := hcomp.1
          rw [this] at hfalse
          exact Bool.noConfusion hfalse

/-- Whether the whitespace discipline holds at one character given the next:
a whitespace character must be a plain space not followed by whitespace. -/
def wsOkAt (c : Char) (next : Option Char) : Bool :=
  !isPySpace c ||
    ((c == ' ') && (match next with | none => true | some d => !isPySpace d))

/-- The whitespace discipline along a string. -/
def wsChain : List Char → Bool
  | [] => true
  | c :: s => wsOkAt c s.head? && wsChain s

theorem wsOkAt_none_of_some {c d : Char} (h : wsOkAt c (some d) = true) :
    wsOkAt c none = true := by
  cases hsp : isPySpace c with
  | false => simp [wsOkAt, hsp]
  | true =>
      simp only [wsOkAt, hsp, Bool.not_true, Bool.false_or, Bool.and_eq_true] at h ⊢
      exact ⟨h.1, trivial⟩

theorem wsChain_tail {c : Char} {s : List Char} (h : wsChain (c :: s) = true) :
    wsChain s = true := by
  simp only [wsChain, Bool.and_eq_true] at h
  exact h.2

theorem wsChain_squeezeF :
    ∀ (fuel : Nat) (s : List Char), s.length ≤ fuel → wsChain (squeezeF fuel s) = true := by
  intro fuel
  induction fuel with
  | zero =>
      intro s hlen
      have hs : s = [] := List.eq_nil_of_length_eq_zero (Nat.le_zero.mp hlen)
      subst hs
      rfl
  | succ f ih =>
      intro s hlen
      cases s with
      | nil => rfl
      | cons c s1 =>
          have hlen1 : s1.length ≤ f := by
            simp only [List.length_cons] at hlen; omega
          cases hsp : isPySpace c with
          | true =>
              simp only [squeezeF, hsp, if_true]
              have hlen2 : (s1.dropWhile isPySpace).length ≤ f :=
                le_trans (List.Sublist.length_le (List.dropWhile_sublist _)) hlen1
              simp only [wsChain, Bool.and_eq_true]
              refine ⟨?_, ih _ hlen2⟩
              cases hX : (squeezeF f (s1.dropWhile isPySpace)).head? with
              | none => simp [wsOkAt]
              | some d =>
                  have heq := squeezeF_head_eq f (s1.dropWhile isPySpace)
                    (fun e he => head_dropWhile_not isPySpace s1 e he)
                  rw [heq] at hX
                  have hd := head_dropWhile_not isPySpace s1 d hX
                  simp [wsOkAt, hd]
          | false =>
              simp only [squeezeF, hsp, Bool.false_eq_true, if_false]
              simp only [wsChain, Bool.and_eq_true]
              exact ⟨by simp [wsOkAt, hsp], ih s1 hlen1⟩

theorem wsChain_append_left :
    ∀ (u v : List Char), wsChain (u ++ v) = true → wsChain u = true := by
  intro u
  induction u with
  | nil => intro v _; rfl
  | cons c u1 ih =>
      intro v h
      simp only [List.cons_append, wsChain, Bool.and_eq_true] at h
      simp only [wsChain, Bool.and_eq_true]
      refine ⟨?_, ih v h.2⟩
      cases u1 with
      | nil =>
          cases hvh : v.head? with
          | none =>
              have hv1 := h.1
              simp only [List.append_eq, List.nil_append, hvh] at hv1
              exact hv1
          | some d =>
              have hv1 := h.1
              simp only [List.append_eq, List.nil_append, hvh] at hv1
              exact wsOkAt_none_of_some hv1
      | cons e u2 =>
          have := h.1
          simpa using this

theorem wsChain_dropWhile (p : Char → Bool) :
    ∀ (s : List Char), wsChain s = true → wsChain (s.dropWhile p) = true := by
  intro s
  induction s with
  | nil => intro _; rfl
  | cons c s1 ih =>
      intro h
      cases hp : p c with
      | true =>
          rw [List.dropWhile_cons_of_pos hp]
          exact ih (wsChain_tail h)
      | false =>
          rw [List.dropWhile_cons_of_neg (by simp [hp])]
          exact h

theorem dropWhile_id_of_head (p : Char → Bool) (s : List Char)
    (h : ∀ d, s.head? = some d → p d = false) : s.dropWhile p = s := by
  cases s with
  | nil => rfl
  | cons c s1 => exact List.dropWhile_cons_of_neg (by simp [h c rfl])

theorem squeezeF_id_of_chain :
    ∀ (fuel : Nat) (s : List Char), wsChain s = true → squeezeF fuel s = s := by
  intro fuel
  induction fuel with
  | zero => intro s _; cases s <;> rfl
  | succ f ih =>
      intro s h
      cases s with
      | nil => rfl
      | cons c s1 =>
          simp only [wsChain, Bool.and_eq_true] at h
          cases hsp : isPySpace c with
          | true =>
              have hok := h.1
              simp only [wsOkAt, hsp, Bool.not_true, Bool.false_or,
                Bool.and_eq_true, beq_iff_eq] at hok
              have hdw : s1.dropWhile isPySpace = s1 := by
                apply dropWhile_id_of_head
                intro d hd
                rw [hd] at hok
                have := hok.2
                simpa using this
              simp only [squeezeF, hsp, if_true, hdw]
              rw [ih s1 h.2, hok.1]
          | false =>
              simp only [squeezeF, hsp, Bool.false_eq_true, if_false]
              rw [ih s1 h.2]

theorem pyStrip_id (s : List Char)
    (hh : ∀ d, s.head? = some d → isPySpace d = false)
    (hl : ∀ d, s.getLast? = some d → isPySpace d = false) : pyStrip s = s := by
  unfold pyStrip
  rw [dropWhile_id_of_head isPySpace s hh]
  rw [dropWhile_id_of_head isPySpace s.reverse (by
    intro d hd
    rw [List.head?_reverse] at hd
    exact hl d hd)]
  exact List.reverse_reverse s

theorem strip_decomp (t : List Char) :
    ∃ v, t = (t.reverse.dropWhile isPySpace).reverse ++ v ∧
      ∀ c ∈ v, isPySpace c = true := by
  refine ⟨(t.reverse.takeWhile isPySpace).reverse, ?_, ?_⟩
  · conv_lhs => rw [← List.reverse_reverse t,
      ← List.takeWhile_append_dropWhile isPySpace t.reverse]
    rw [List.reverse_append]
  · intro c hc
    rw [List.mem_reverse] at hc
    exact List.mem_takeWhile_imp hc

theorem noOcc_pyStrip (pp : Char) (pps : List Char) (s : List Char)
    (h : noOcc pp pps none s = true) : noOcc pp pps none (pyStrip s) = true := by
  have h1 : noOcc pp pps none (s.dropWhile isPySpace) = true := by
    have := noOcc_dropWhile_space pp pps s none rfl h
    rwa [noOcc_prev_congr pp pps (s.dropWhile isPySpace) (some ' ') none
      (by decide)] at this
  obtain ⟨v, hdec, hv⟩ := strip_decomp (s.dropWhile isPySpace)
  rw [hdec] at h1
  exact noOcc_append_spaces pp pps v hv _ none h1

theorem wsChain_pyStrip (s : List Char) (h : wsChain s = true) :
    wsChain (pyStrip s) = true := by
  have h1 : wsChain (s.dropWhile isPySpace) = true := wsChain_dropWhile isPySpace s h
  obtain ⟨v, hdec, _⟩ := strip_decomp (s.dropWhile isPySpace)
  rw [hdec] at h1
  exact wsChain_append_left _ v h1

theorem pyStrip_head_not_space (s : List Char) :
    ∀ d, (pyStrip s).head? = some d → isPySpace d = false := by
  intro d hd
  obtain ⟨v, hdec, _⟩ := strip_decomp (s.dropWhile isPySpace)
  have hne : pyStrip s ≠ [] := by
    intro hnil
    rw [hnil] at hd
    simp at hd
  have hth : (s.dropWhile isPySpace).head? = some d := by
    rw [hdec]
    cases hps : pyStrip s with
    | nil => exact absurd hps hne
    | cons a r =>
        have : ((s.dropWhile isPySpace).reverse.dropWhile isPySpace).reverse = a :: r := hps
        rw [this]
        rw [hps] at hd
        simpa using hd
  exact head_dropWhile_not isPySpace s d hth

theorem pyStrip_last_not_space (s : List Char) :
    ∀ d, (pyStrip s).getLast? = some d → isPySpace d = false := by
  intro d hd
  unfold pyStrip at hd
  rw [List.getLast?_reverse] at hd
  exact head_dropWhile_not isPySpace (s.dropWhile isPySpace).reverse d hd

theorem mem_subWAF (p : Char) (ps : List Char) :
    ∀ (fuel : Nat) (s : List Char) (prev : Option Char) (c : Char),
      c ∈ subWAF fuel p ps prev s → c ∈ s := by
  intro fuel
  induction fuel with
  | zero =>
      intro s prev c h
      have he : subWAF 0 p ps prev s = s := by cases s <;> rfl
      rwa [he] at h
  | succ f ih =>
      intro s prev c h
      cases s with
      | nil => rwa [subWAF_nil] at h
      | cons a s1 =>
          cases hm : matchHere p ps prev (a :: s1) with
          | true =>
              rw [show subWAF (f + 1) p ps prev (a :: s1) =
                subWAF f p ps (some (lastC p ps)) ((a :: s1).drop (ps.length + 1)) by
                  simp [subWAF, hm]] at h
              exact List.mem_of_mem_drop (ih _ _ c h)
          | false =>
              rw [show subWAF (f + 1) p ps prev (a :: s1) =
                a :: subWAF f p ps (some a) s1 by simp [subWAF, hm]] at h
              rcases List.mem_cons.1 h with rfl | h2
              · exact List.mem_cons_self _ _
              · exact List.mem_cons_of_mem _ (ih s1 (some a) c h2)

theorem mem_squeezeF :
    ∀ (fuel : Nat) (s : List Char) (c : Char),
      c ∈ squeezeF fuel s → c ∈ s ∨ c = ' ' := by
  intro fuel
  induction fuel with
  | zero =>
      intro s c h
      have he : squeezeF 0 s = s := by cases s <;> rfl
      rw [he] at h
      exact Or.inl h
  | succ f ih =>
      intro s c h
      cases s with
      | nil => rw [show squeezeF (f + 1) [] = [] from rfl] at h; simp at h
      | cons a s1 =>
          cases hsp : isPySpace a with
          | true =>
              rw [show squeezeF (f + 1) (a :: s1) =
                ' ' :: squeezeF f (s1.dropWhile isPySpace) by simp [squeezeF, hsp]] at h
              rcases List.mem_cons.1 h with rfl | h2
              · exact Or.inr rfl
              · rcases ih _ c h2 with h3 | h3
                · exact Or.inl (List.mem_cons_of_mem _
                    ((List.dropWhile_sublist _).mem h3))
                · exact Or.inr h3
          | false =>
              rw [show squeezeF (f + 1) (a :: s1) = a :: squeezeF f s1 by
                simp [squeezeF, hsp]] at h
              rcases List.mem_cons.1 h with rfl | h2
              · exact Or.inl (List.mem_cons_self _ _)
              · rcases ih s1 c h2 with h3 | h3
                · exact Or.inl (List.mem_cons_of_mem _ h3)
                · exact Or.inr h3

theorem mem_pyStrip (s : List Char) (c : Char) (h : c ∈ pyStrip s) : c ∈ s := by
  unfold pyStrip at h
  rw [List.mem_reverse] at h
  have h1 := (List.dropWhile_sublist _).mem h
  rw [List.mem_reverse] at h1
  exact (List.dropWhile_sublist _).mem h1

/-- A pattern whose first and last characters are word characters (the `\b`
anchors then mean "non-word or boundary on the outside"). -/
def patEndsOK (pat : String) : Bool :=
  match pat.data with
  | [] => false
  | p :: ps => isW p && isW (lastC p ps)

/-- A non-empty pattern all of whose characters are word characters. -/
def patAllW (pat : String) : Bool := !pat.data.isEmpty && pat.data.all isW

theorem suffixPatterns_ends_ok : suffixPatterns.all patEndsOK = true := by decide

theorem suffixPatterns_classify :
    ∀ pat ∈ suffixPatterns,
      patAllW pat = true ∨ pat = "PRIVATE LIMITED" ∨ pat = "PVT LTD" ∨ pat = "P LTD" := by
  decide

theorem pySub_eq (pat : String) (p : Char) (ps : List Char) (hd : pat.data = p :: ps)
    (s : List Char) : pySub pat s = subWAF s.length p ps none s := by
  unfold pySub subWA
  rw [hd]

theorem pySub_id_of_noOcc (pat : String) (p : Char) (ps : List Char)
    (hd : pat.data = p :: ps) (s : List Char) (h : noOcc p ps none s = true) :
    pySub pat s = s := by
  rw [pySub_eq pat p ps hd s]
  exact subWAF_id_of_noOcc p ps s.length s none h

theorem noOcc_pySub_self (pat : String) (p : Char) (ps : List Char)
    (hd : pat.data = p :: ps) (hall : ∀ c ∈ p :: ps, isW c = true) (s : List Char) :
    noOcc p ps none (pySub pat s) = true := by
  rw [pySub_eq pat p ps hd s]
  exact noOcc_subWAF_self p ps hall s.length s none le_rfl

theorem noOcc_pySub_preserve (pat : String) (q : Char) (qs : List Char)
    (hd : pat.data = q :: qs) (hq : isW q = true) (hql : isW (lastC q qs) = true)
    (pp : Char) (pps : List Char) (hpp : ∀ x ∈ pp :: pps, isW x = true)
    (s : List Char) (h : noOcc pp pps none s = true) :
    noOcc pp pps none (pySub pat s) = true := by
  rw [pySub_eq pat q qs hd s]
  exact noOcc_subWAF_preserve q qs hq hql pp pps hpp s.length s none le_rfl h

theorem mem_pySub (pat : String) (s : List Char) (c : Char) (h : c ∈ pySub pat s) :
    c ∈ s := by
  cases hd : pat.data with
  | nil =>
      unfold pySub at h
      rw [hd] at h
      exact h
  | cons p ps =>
      rw [pySub_eq pat p ps hd s] at h
      exact mem_subWAF p ps s.length s none c h

theorem foldl_pySub_id :
    ∀ (qs : List String) (y : List Char), (∀ q ∈ qs, pySub q y = y) →
      qs.foldl (fun acc pat => pySub pat acc) y = y := by
  intro qs
  induction qs with
  | nil => intro y _; rfl
  | cons q qs ih =>
      intro y h
      simp only [List.foldl_cons]
      rw [h q (List.mem_cons_self _ _)]
      exact ih y (fun r hr => h r (List.mem_cons_of_mem _ hr))

theorem foldl_pySub_preserve (pp : Char) (pps : List Char)
    (hpp : ∀ x ∈ pp :: pps, isW x = true) :
    ∀ (qs : List String), (∀ q ∈ qs, patEndsOK q = true) →
      ∀ (s : List Char), noOcc pp pps none s = true →
        noOcc pp pps none (qs.foldl (fun acc pat => pySub pat acc) s) = true := by
  intro qs
  induction qs with
  | nil => intro _ s h; exact h
  | cons q qs ih =>
      intro hq s h
      simp only [List.foldl_cons]
      have hqok := hq q (List.mem_cons_self _ _)
      cases hd : q.data with
      | nil => rw [patEndsOK, hd] at hqok; exact Bool.noConfusion hqok
      | cons q0 qrest =>
          rw [patEndsOK, hd] at hqok
          simp only [Bool.and_eq_true] at hqok
          exact ih (fun r hr => hq r (List.mem_cons_of_mem _ hr)) _
            (noOcc_pySub_preserve q q0 qrest hd hqok.1 hqok.2 pp pps hpp s h)

theorem suffixFold_kills (tp : String) (htp : tp ∈ suffixPatterns)
    (p : Char) (ps : List Char) (hd : tp.data = p :: ps)
    (hall : ∀ c ∈ p :: ps, isW c = true) (s : List Char) :
    noOcc p ps none (suffixPatterns.foldl (fun acc pat => pySub pat acc) s) = true := by
  obtain ⟨u, v, huv⟩ := List.append_of_mem htp
  rw [huv, List.foldl_append]
  simp only [List.foldl_cons]
  have h1 : noOcc p ps none
      (pySub tp (u.foldl (fun acc pat => pySub pat acc) s)) = true :=
    noOcc_pySub_self tp p ps hd hall _
  apply foldl_pySub_preserve p ps hall v ?_ _ h1
  intro q hq
  have hmem : q ∈ suffixPatterns := by
    rw [huv]
    exact List.mem_append_right u (List.mem_cons_of_mem tp hq)
  have := suffixPatterns_ends_ok
  rw [List.all_eq_true] at this
  exact this q hmem

theorem mem_foldl_pySub :
    ∀ (qs : List String) (s : List Char) (c : Char),
      c ∈ qs.foldl (fun acc pat => pySub pat acc) s → c ∈ s := by
  intro qs
  induction qs with
  | nil => intro s c h; exact h
  | cons q qs ih =>
      intro s c h
      simp only [List.foldl_cons] at h
      exact mem_pySub q s c (ih _ c h)

theorem endC_append_singleton (a : Char) :
    ∀ (u : List Char) (prev : Option Char), endC prev (u ++ [a]) = some a := by
  intro u
  induction u with
  | nil => intro prev; rfl
  | cons c u ih => intro prev; exact ih (some c)

theorem isPrefixOf_append_self (a t : List Char) : a.isPrefixOf (a ++ t) = true :=
  (isPrefixOf_iff_append a (a ++ t)).2 ⟨t, rfl⟩

/-- A multi-word pattern has no `\b`-anchored occurrence wherever its final
word has none: an occurrence of the whole pattern contains an anchored
occurrence of the word after the internal space. -/
theorem noOcc_multi_of_last (mh : Char) (mt : List Char) (wh : Char) (wt : List Char)
    (pre : List Char) (hstruct : mh :: mt = pre ++ ' ' :: wh :: wt)
    (hw : ∀ c ∈ wh :: wt, isW c = true)
    (hlast : lastC mh mt = lastC wh wt) :
    ∀ (s : List Char) (prev : Option Char),
      noOcc wh wt prev s = true → noOcc mh mt prev s = true := by
  intro s
  induction s with
  | nil => intro prev _; rfl
  | cons c s1 ih =>
      intro prev h
      have hcomp := (by
        simpa only [noOcc, Bool.and_eq_true] using h :
          (!matchHere wh wt prev (c :: s1)) = true ∧ noOcc wh wt (some c) s1 = true)
      simp only [noOcc, Bool.and_eq_true]
      refine ⟨?_, ih (some c) hcomp.2⟩
      cases hm : matchHere mh mt prev (c :: s1) with
      | false => rfl
      | true =>
          exfalso
          have hm' := (by
            simpa only [matchHere, Bool.and_eq_true] using hm :
              ((wordB prev != isW mh) = true ∧ (mh :: mt).isPrefixOf (c :: s1) = true) ∧
              (isW (lastC mh mt) !=
                wordB (((c :: s1).drop (mt.length + 1)).head?)) = true)
          obtain ⟨⟨_, hpre⟩, hafter⟩ := hm'
          obtain ⟨t, htdec⟩ := (isPrefixOf_iff_append _ _).1 hpre
          have hdrop : (c :: s1).drop (mt.length + 1) = t := by
            rw [htdec]
            have : mt.length + 1 = (mh :: mt).length := by simp
            rw [this, List.drop_left]
          rw [hdrop] at hafter
          have hshape : c :: s1 = (pre ++ [' ']) ++ ((wh :: wt) ++ t) := by
            rw [htdec, hstruct]
            simp [List.append_assoc]
          have hpeel : noOcc wh wt (some ' ') ((wh :: wt) ++ t) = true := by
            have := noOcc_append_peel wh wt ((wh :: wt) ++ t) (pre ++ [' ']) prev
              (by rw [← hshape]; exact h)
            rwa [endC_append_singleton ' ' pre prev] at this
          have hinner := (by
            simpa only [List.cons_append, noOcc, Bool.and_eq_true] using hpeel :
              (!matchHere wh wt (some ' ') (wh :: (wt ++ t))) = true ∧
              noOcc wh wt (some wh) (wt ++ t) = true)
          have hmatch : matchHere wh wt (some ' ') (wh :: (wt ++ t)) = true := by
            simp only [matchHere, Bool.and_eq_true]
            refine ⟨⟨?_, ?_⟩, ?_⟩
            · have : isW wh = true := hw wh (List.mem_cons_self _ _)
              rw [show wordB (some ' ') = false from by decide, this]
              rfl
            · have := isPrefixOf_append_self (wh :: wt) t
              rwa [List.cons_append] at this
            · have hdrop2 : (wh :: (wt ++ t)).drop (wt.length + 1) = t := by
                have : wh :: (wt ++ t) = (wh :: wt) ++ t := by simp
                rw [this]
                have h2 : wt.length + 1 = (wh :: wt).length := by simp
                rw [h2, List.drop_left]
              rw [hdrop2, ← hlast]
              exact hafter
          have hfalse := hinner.1
          rw [hmatch] at hfalse
          exact Bool.noConfusion hfalse

theorem noOcc_private_limited (s : List Char) (prev : Option Char)
    (h : noOcc 'L' "IMITED".data prev s = true) :
    noOcc 'P' "RIVATE LIMITED".data prev s = true :=
  noOcc_multi_of_last 'P' "RIVATE LIMITED".data 'L' "IMITED".data "PRIVATE".data
    (by decide) (by decide) (by decide) s prev h

theorem noOcc_pvt_ltd (s : List Char) (prev : Option Char)
    (h : noOcc 'L' "TD".data prev s = true) :
    noOcc 'P' "VT LTD".data prev s = true :=
  noOcc_multi_of_last 'P' "VT LTD".data 'L' "TD".data "PVT".data
    (by decide) (by decide) (by decide) s prev h

theorem noOcc_p_ltd (s : List Char) (prev : Option Char)
    (h : noOcc 'L' "TD".data prev s = true) :
    noOcc 'P' " LTD".data prev s = true :=
  noOcc_multi_of_last 'P' " LTD".data 'L' "TD".data "P".data
    (by decide) (by decide) (by decide) s prev h

/-- The normal form `clean_legal_name` produces: uppercase-stable characters,
no periods or commas, no `\b`-anchored occurrence of any all-word suffix
pattern, and normalized whitespace. -/
def NormalStr (s : List Char) : Prop :=
  (∀ c ∈ s, pyUpper c = c) ∧
  (∀ c ∈ s, (c == '.' || c == ',') = false) ∧
  (∀ pat ∈ suffixPatterns, ∀ (p : Char) (ps : List Char),
      pat.data = p :: ps → (∀ c ∈ p :: ps, isW c = true) → noOcc p ps none s = true) ∧
  wsChain s = true ∧
  (∀ d, s.head? = some d → isPySpace d = false) ∧
  (∀ d, s.getLast? = some d → isPySpace d = false)

theorem map_id_of_fixed {f : Char → Char} :
    ∀ (l : List Char), (∀ c ∈ l, f c = c) → l.map f = l := by
  intro l
  induction l with
  | nil => intro _; rfl
  | cons c l ih =>
      intro h
      simp only [List.map_cons]
      rw [h c (List.mem_cons_self _ _), ih (fun a ha => h a (List.mem_cons_of_mem _ ha))]

theorem clean_fix (y : List Char) (hN : NormalStr y) : clean_legal_name y = y := by
  obtain ⟨h1, h2, h3, h4, h5, h6⟩ := hN
  show pyStrip (squeezeWS (suffixPatterns.foldl (fun acc pat => pySub pat acc)
    ((y.map pyUpper).filter (fun c => !(c == '.' || c == ','))))) = y
  rw [map_id_of_fixed y h1]
  rw [List.filter_eq_self.mpr (fun a ha => by rw [h2 a ha]; rfl)]
  rw [foldl_pySub_id suffixPatterns y ?_]
  · unfold squeezeWS
    rw [squeezeF_id_of_chain y.length y h4]
    exact pyStrip_id y h5 h6
  · intro q hq
    cases hd : q.data with
    | nil =>
        unfold pySub
        rw [hd]
    | cons p ps =>
        apply pySub_id_of_noOcc q p ps hd
        rcases suffixPatterns_classify q hq with hall | hq1 | hq2 | hq3
        · apply h3 q hq p ps hd
          rw [patAllW, hd] at hall
          simp only [Bool.and_eq_true, List.all_eq_true] at hall
          exact hall.2
        · subst hq1
          have hdc : ("PRIVATE LIMITED").data = 'P' :: "RIVATE LIMITED".data := rfl
          rw [hdc] at hd
          injection hd with hdp hdps
          subst hdp
          subst hdps
          exact noOcc_private_limited y none
            (h3 "LIMITED" (by decide) 'L' "IMITED".data rfl (by decide))
        · subst hq2
          have hdc : ("PVT LTD").data = 'P' :: "VT LTD".data := rfl
          rw [hdc] at hd
          injection hd with hdp hdps
          subst hdp
          subst hdps
          exact noOcc_pvt_ltd y none
            (h3 "LTD" (by decide) 'L' "TD".data rfl (by decide))
        · subst hq3
          have hdc : ("P LTD").data = 'P' :: " LTD".data := rfl
          rw [hdc] at hd
          injection hd with hdp hdps
          subst hdp
          subst hdps
          exact noOcc_p_ltd y none
            (h3 "LTD" (by decide) 'L' "TD".data rfl (by decide))

theorem normal_clean (x : List Char) : NormalStr (clean_legal_name x) := by
  have hclean : clean_legal_name x =
      pyStrip (squeezeWS (suffixPatterns.foldl (fun acc pat => pySub pat acc)
        ((x.map pyUpper).filter (fun c => !(c == '.' || c == ','))))) := rfl
  set r := suffixPatterns.foldl (fun acc pat => pySub pat acc)
    ((x.map pyUpper).filter (fun c => !(c == '.' || c == ','))) with hr
  have memr : ∀ c ∈ r, c ∈ (x.map pyUpper).filter (fun c => !(c == '.' || c == ',')) :=
    fun c hc => mem_foldl_pySub suffixPatterns _ c hc
  refine ⟨?_, ?_, ?_, ?_, ?_, ?_⟩
  · intro c hc
    rw [hclean] at hc
    have hc2 := mem_pyStrip _ c hc
    unfold squeezeWS at hc2
    rcases mem_squeezeF r.length r c hc2 with hc3 | rfl
    · have hc4 := memr c hc3
      rw [List.mem_filter] at hc4
      rcases List.mem_map.1 hc4.1 with ⟨o, _, rfl⟩
      exact pyUpper_idem o
    · exact pyUpper_space
  · intro c hc
    rw [hclean] at hc
    have hc2 := mem_pyStrip _ c hc
    unfold squeezeWS at hc2
    rcases mem_squeezeF r.length r c hc2 with hc3 | rfl
    · have hc4 := memr c hc3
      rw [List.mem_filter] at hc4
      have := hc4.2
      cases hb : (c == '.' || c == ',') with
      | false => rfl
      | true => rw [hb] at this; exact Bool.noConfusion this
    · decide
  · intro pat hpat p ps hd hall
    rw [hclean]
    apply noOcc_pyStrip
    unfold squeezeWS
    apply noOcc_squeezeF p ps hall r.length r none le_rfl
    exact suffixFold_kills pat hpat p ps hd hall _
  · rw [hclean]
    apply wsChain_pyStrip
    unfold squeezeWS
    exact wsChain_squeezeF r.length r le_rfl
  · rw [hclean]
    exact pyStrip_head_not_space _
  · rw [hclean]
    exact pyStrip_last_not_space _

theorem data_mk (l : List Char) : (String.mk l).data = l := rfl

theorem cleanName_unfold (s : String) : cleanName s = String.mk (clean_legal_name s.data) :=
  rfl

/-- C9: the Name Normalizer is deterministic (a pure function of its input)
and idempotent: cleaning an already-cleaned name changes nothing. -/
theorem c9_clean_idempotent :
    (∀ x : String, cleanName (cleanName x) = cleanName x) ∧
    (∀ x y : String, x = y → cleanName x = cleanName y) := by
  refine ⟨fun x => ?_, fun x y h => by rw [h]⟩
  have key : clean_legal_name (clean_legal_name x.data) = clean_legal_name x.data :=
    clean_fix _ (normal_clean x.data)
  rw [cleanName_unfold x, cleanName_unfold (String.mk (clean_legal_name x.data)),
    data_mk, key]

/-- Witness for `c9_clean_idempotent` at a concrete name. -/
theorem c9_clean_idempotent_witness :
    cleanName (cleanName "Acme Pvt. Ltd.") = cleanName "Acme Pvt. Ltd." ∧
    cleanName "Acme Pvt. Ltd." = "ACME" :=
  ⟨c9_clean_idempotent.1 "Acme Pvt. Ltd.", by decide⟩
